import Mathlib

/-!
# linkchecker: graph traversal and link counting

A shallow embedding of `structures/structures.go` and `main.go`.

* Go pointers `*Node` are modelled by `Ptr := Option Nat`: `none` is `nil`, `some i` addresses
  cell `i` of the heap, the list of all `Node` values allocated so far.
* Go maps are association lists with pairwise distinct keys (`mapGet`, `mapSet`); where the
  source ranges over a map the iteration order is an explicit argument.
* A run of Go code that panics (nil dereference, index out of range) is a distinct outcome.
* Go `int` counts are modelled by `Int`; a count grows by one per `AddCountForLink` call and
  the machine width of `int` is not modelled.
-/

set_option maxRecDepth 100000

namespace Linkchecker

/-! ## Data model -/

/-- A `*Node`: `none` is the nil pointer, `some i` points to heap cell `i`. -/
abbrev Ptr := Option Nat

/-- The `Node` struct (the embedded mutex carries no data). -/
structure Node where
  name : String
  links : String
  edges : List Ptr
deriving DecidableEq, Repr

/-- The memory holding every allocated `Node`. -/
abbrev Heap := List Node

/-- Pointer dereference; `none` when the pointer is nil or addresses no cell (a Go panic). -/
def deref (h : Heap) : Ptr → Option Node
  | none => none
  | some i => h[i]?

/-- Go `NewNode`: the struct literal built from the three arguments. -/
def NewNode (name : String) (links : String) (edges : List Ptr) : Node :=
  { name := name, links := links, edges := edges }

/-- Go `GetLinks`: `strings.Split(n.links, "")`, one string per character of `links`
(a `String` is valid text, so every character is one UTF-8 sequence). -/
def Node.GetLinks (n : Node) : List String :=
  n.links.toList.map String.singleton

/-- Go `AddEdge`: `n.edges = append(n.edges, edge)`. -/
def Node.AddEdge (n : Node) (edge : Ptr) : Node :=
  { n with edges := n.edges ++ [edge] }

/-! ## Go maps -/

/-- Map lookup `m[k]` with the comma-ok result: `none` when the key is absent. -/
def mapGet {κ ν : Type} [DecidableEq κ] : List (κ × ν) → κ → Option ν
  | [], _ => none
  | (k', v) :: rest, k => if k' = k then some v else mapGet rest k

/-- Map assignment `m[k] = v`: overwrite the entry of `k` or add a new one. -/
def mapSet {κ ν : Type} [DecidableEq κ] : List (κ × ν) → κ → ν → List (κ × ν)
  | [], k, v => [(k, v)]
  | (k', v') :: rest, k, v =>
    if k' = k then (k, v) :: rest else (k', v') :: mapSet rest k v

/-- The keys of a map, in storage order. -/
def mapKeys {κ ν : Type} (m : List (κ × ν)) : List κ := m.map Prod.fst

/-! ## Queue -/

/-- The `Queue` struct: a slice of node pointers. -/
structure Queue where
  queue : List Ptr
deriving DecidableEq, Repr

/-- Go `NewQueue`: an empty slice. -/
def NewQueue : Queue := { queue := [] }

/-- Go `IsEmpty`: `len(q.queue) < 1`. -/
def Queue.IsEmpty (q : Queue) : Bool := decide (q.queue.length < 1)

/-- Go `Add`: `q.queue = append(q.queue, n)`. -/
def Queue.Add (q : Queue) (n : Ptr) : Queue := { queue := q.queue ++ [n] }

/-- Go `Pop`: `element := q.queue[0]; q.queue = q.queue[1:]`; indexing an empty slice
panics, modelled by `none`. -/
def Queue.Pop (q : Queue) : Option (Ptr × Queue) :=
  match q.queue with
  | [] => none
  | element :: rest => some (element, { queue := rest })

/-- The call `Pop` made `k` times in a row: the elements returned, in order, and the queue left
(`none` when one of the calls panics). -/
def Queue.popN : Nat → Queue → Option (List Ptr × Queue)
  | 0, q => some ([], q)
  | k + 1, q =>
    match q.Pop with
    | none => none
    | some (x, q1) =>
      match Queue.popN k q1 with
      | none => none
      | some (xs, q2) => some (x :: xs, q2)

/-! ## Counter -/

/-- The `Counter` struct: `map[string]int`. -/
structure Counter where
  counter : List (String × Int)
deriving DecidableEq, Repr

/-- Go `NewCounter`: an empty map. -/
def NewCounter : Counter := { counter := [] }

/-- Go `AddCountForLink`: create the entry at zero when it does not exist, then increment it. -/
def Counter.AddCountForLink (c : Counter) (link : String) : Counter :=
  let m := if (mapGet c.counter link).isSome then c.counter else mapSet c.counter link 0
  { counter := mapSet m link ((mapGet m link).getD 0 + 1) }

/-- The entry of a symbol in the counter map (`none`: no entry). -/
def Counter.get (c : Counter) (link : String) : Option Int := mapGet c.counter link

/-- The text `fmt.Sprintf("%v:%v", k, v)` gives for a string and an int. -/
def formatCount (k : String) (v : Int) : String := k ++ ":" ++ toString v

/-- Go `GetCounts`: one formatted string per map entry. `order` is the sequence in which the
`range` statement yields the keys of the map. The result is the returned slice together
with the counter after the call. -/
def Counter.GetCounts (c : Counter) (order : List String) : List String × Counter :=
  (order.foldl (fun arr k => arr ++ [formatCount k ((mapGet c.counter k).getD 0)]) [], c)

/-! ## Visited tracker -/

/-- The `VisitedTracker` struct: `map[*Node]bool`. -/
structure VisitedTracker where
  visited : List (Ptr × Bool)
deriving DecidableEq, Repr

/-- Go `NewTracker`: an empty map. -/
def NewTracker : VisitedTracker := { visited := [] }

/-- Go `isVisited`: whether the map has an entry for the node. -/
def VisitedTracker.isVisited (vt : VisitedTracker) (node : Ptr) : Bool :=
  (mapGet vt.visited node).isSome

/-- Go `IsVisited`: `isVisited` under the lock. -/
def VisitedTracker.IsVisited (vt : VisitedTracker) (node : Ptr) : Bool :=
  vt.isVisited node

/-- Go `Visit`: `vt.visited[node] = true` under the lock. -/
def VisitedTracker.Visit (vt : VisitedTracker) (node : Ptr) : VisitedTracker :=
  { visited := mapSet vt.visited node true }

/-- A call on the tracker: one of its two exported methods. -/
inductive TrackerCall where
  | IsVisited (node : Ptr)
  | Visit (node : Ptr)
deriving DecidableEq, Repr

/-- The tracker after a call: `IsVisited` only reads the map, `Visit` writes it. -/
def VisitedTracker.call (vt : VisitedTracker) : TrackerCall → VisitedTracker
  | TrackerCall.IsVisited _ => vt
  | TrackerCall.Visit node => vt.Visit node

/-! ## Traversal -/

/-- The three objects every worker shares. -/
structure Shared where
  counter : Counter
  queue : Queue
  tracker : VisitedTracker
deriving DecidableEq, Repr

/-- How a run ends: normally with a final state, with a Go panic, or not within the
given number of loop iterations. -/
inductive Outcome where
  | done (s : Shared)
  | panicked
  | outOfFuel
deriving DecidableEq, Repr

/-- The `for _, link := range n.GetLinks()` loop of `CountLinks`. -/
def countNodeLinks (c : Counter) (links : List String) : Counter :=
  links.foldl (fun acc link => acc.AddCountForLink link) c

/-- The `for _, edge := range n.edges` loop of `CountLinks`. -/
def enqueueEdges (q : Queue) (edges : List Ptr) : Queue :=
  edges.foldl (fun acc edge => acc.Add edge) q

/-- The `for !queue.IsEmpty()` loop of `CountLinks`, run for at most `fuel` evaluations
of the loop condition. -/
def countLinksLoop (h : Heap) : Nat → Shared → Outcome
  | 0, _ => Outcome.outOfFuel
  | fuel + 1, s =>
    if s.queue.IsEmpty then Outcome.done s
    else
      match s.queue.Pop with
      | none => Outcome.panicked
      | some (n, q) =>
        if !s.tracker.IsVisited n then
          let tracker := s.tracker.Visit n
          match deref h n with
          | none => Outcome.panicked
          | some node =>
            let counter := countNodeLinks s.counter node.GetLinks
            let queue := enqueueEdges q node.edges
            countLinksLoop h fuel { counter := counter, queue := queue, tracker := tracker }
        else
          countLinksLoop h fuel { s with queue := q }

/-- Go `CountLinks` with a bound on the number of loop-condition evaluations. The `grph` and
`name` arguments of the source are never read and are left out. -/
def CountLinksFuel (h : Heap) (fuel : Nat) (s : Shared) (entryPoint : Ptr) : Outcome :=
  countLinksLoop h fuel { s with queue := s.queue.Add entryPoint }

/-- Number of edges of the heap cells the tracker has not marked. -/
def unvisitedEdges (h : Heap) (t : VisitedTracker) : Nat :=
  ((List.range h.length).map (fun i =>
    if t.isVisited (some i) then 0 else ((h[i]?).map (fun n => n.edges.length)).getD 0)).sum

/-- A number of loop-condition evaluations that suffices for the loop started in `s`. -/
def loopFuel (h : Heap) (s : Shared) : Nat :=
  s.queue.queue.length + unvisitedEdges h s.tracker + 1

/-- Go `CountLinks`: add the entry point to the queue and run the loop to its end. -/
def CountLinks (h : Heap) (s : Shared) (entryPoint : Ptr) : Outcome :=
  CountLinksFuel h (loopFuel h { s with queue := s.queue.Add entryPoint }) s entryPoint

/-- The state `main` starts from: `NewCounter()`, `NewQueue()`, `NewTracker()`. -/
def initShared : Shared :=
  { counter := NewCounter, queue := NewQueue, tracker := NewTracker }

/-- Every edge of every heap cell points to a heap cell (no nil edge). -/
def wellFormed (h : Heap) : Bool :=
  h.all (fun n => n.edges.all (fun e => (deref h e).isSome))

/-- The pointer addresses a node. -/
def validPtr (h : Heap) (p : Ptr) : Bool := (deref h p).isSome

/-- The graph of the scenario in the specification. -/
def specHeap : Heap :=
  [ NewNode "one" "ABC" [some 1, some 2],
    NewNode "two" "BBA" [some 3],
    NewNode "three" "DEF" [],
    NewNode "four" "FHHG" [] ]

/-- The workers of `main` run one after the other: `CountLinks` for each entry point in
turn, to completion, against the same shared objects. -/
def runSequential (h : Heap) : Shared → List Ptr → Outcome
  | s, [] => Outcome.done s
  | s, e :: es =>
    match CountLinks h s e with
    | Outcome.done s' => runSequential h s' es
    | Outcome.panicked => Outcome.panicked
    | Outcome.outOfFuel => Outcome.outOfFuel

/-! ## Graph construction -/

/-- The `NodeConfig` struct. -/
structure NodeConfig where
  name : String
  links : String
  edges : List String
deriving DecidableEq, Repr

/-- The `GraphConfig` struct; `NodeConfigs` is a `map[string]NodeConfig`. -/
structure GraphConfig where
  NodeConfigs : List (String × NodeConfig)
  EntryPoints : List String
deriving DecidableEq, Repr

/-- The `Graph` struct; `Created` is a `map[string]*Node`. -/
structure Graph where
  Nodes : List Ptr
  EntryPoints : List Ptr
  Created : List (String × Ptr)
deriving DecidableEq, Repr

/-- The zero value of `NodeConfig`, which a lookup of a missing key yields. -/
def NodeConfig.zero : NodeConfig := { name := "", links := "", edges := [] }

/-- The call `n.AddEdge(edge)` through the pointer `n`: the heap cell is updated in place. -/
def heapAddEdge (h : Heap) (n : Ptr) (edge : Ptr) : Heap :=
  match n with
  | none => h
  | some i =>
    match h[i]? with
    | none => h
    | some node => h.set i (node.AddEdge edge)

/-- Go `CreateNodeFromConfig`, with a bound `fuel` on the depth of the recursion (`none` when
the bound is hit). The result is the returned pointer with the heap and graph after the
call. -/
def CreateNodeFromConfig (config : GraphConfig) :
    Nat → String → Heap × Graph → Option (Ptr × (Heap × Graph))
  | 0, _, _ => none
  | fuel + 1, name, (h, grph) =>
    let built : Option (Heap × Graph) :=
      if (mapGet grph.Created name).isSome then some (h, grph)
      else
        let cfg := (mapGet config.NodeConfigs name).getD NodeConfig.zero
        let n : Ptr := some h.length
        let h1 := h ++ [NewNode name cfg.links []]
        let grph1 := { grph with Created := mapSet grph.Created cfg.name n }
        cfg.edges.foldl (fun acc edgeName =>
          match acc with
          | none => none
          | some st =>
            match CreateNodeFromConfig config fuel edgeName st with
            | none => none
            | some (edgeNode, (h2, grph2)) => some (heapAddEdge h2 n edgeNode, grph2))
          (some (h1, grph1))
    match built with
    | none => none
    | some (h', grph') =>
      let created : Ptr := (mapGet grph'.Created name).getD none
      some (created, (h', { grph' with Nodes := grph'.Nodes ++ [created] }))

/-- Go `ConfigGraph`; `order` is the sequence in which `range config.NodeConfigs` yields the
keys, `fuel` bounds the recursion depth of `CreateNodeFromConfig`. -/
def ConfigGraph (config : GraphConfig) (order : List String) (fuel : Nat) :
    Option (Heap × Graph) :=
  let g : Graph := { Nodes := [], EntryPoints := [], Created := [] }
  let built := order.foldl (fun acc key =>
    match acc with
    | none => none
    | some st =>
      let nodeConfig := (mapGet config.NodeConfigs key).getD NodeConfig.zero
      (CreateNodeFromConfig config fuel nodeConfig.name st).map Prod.snd) (some ([], g))
  built.map (fun st =>
    (st.1, config.EntryPoints.foldl (fun (acc : Graph) name =>
      { acc with EntryPoints := acc.EntryPoints ++ [(mapGet acc.Created name).getD none] }) st.2))

/-- The configuration literal of `ConfigGraphDefault`. -/
def defaultConfig : GraphConfig :=
  { NodeConfigs :=
      [ ("one", { name := "one", links := "ABC", edges := ["two", "three"] }),
        ("two", { name := "two", links := "BBA", edges := ["four"] }),
        ("three", { name := "three", links := "DEF", edges := ["five", "six", "seven"] }),
        ("four", { name := "four", links := "FHHG", edges := [] }),
        ("five", { name := "five", links := "AAA", edges := ["seven", "eight"] }),
        ("six", { name := "six", links := "AAA", edges := ["eight", "nine"] }),
        ("seven", { name := "seven", links := "JBK", edges := [] }),
        ("eight", { name := "eight", links := "BBB", edges := ["two"] }),
        ("nine", { name := "nine", links := "KVOSD", edges := ["three"] }) ],
    EntryPoints := ["one", "nine"] }

/-- Go `ConfigGraphDefault`, for a given iteration order of the configuration map. -/
def ConfigGraphDefault (order : List String) : Option (Heap × Graph) :=
  ConfigGraph defaultConfig order 10

/-- The heap `ConfigGraphDefault` builds when the map is ranged over in the order of the
literal: cells `one, two, four, three, five, seven, eight, six, nine`. -/
def defaultHeap : Heap :=
  [ NewNode "one" "ABC" [some 1, some 3],
    NewNode "two" "BBA" [some 2],
    NewNode "four" "FHHG" [],
    NewNode "three" "DEF" [some 4, some 7, some 5],
    NewNode "five" "AAA" [some 5, some 6],
    NewNode "seven" "JBK" [],
    NewNode "eight" "BBB" [some 1],
    NewNode "six" "AAA" [some 6, some 8],
    NewNode "nine" "KVOSD" [some 3] ]

/-! ## Workers interleaved -/

/-- Where a worker stands in `CountLinks`: the next call it makes on a shared object. -/
inductive Pc where
  | start (entryPoint : Ptr)
  | test
  | pop
  | check (n : Ptr)
  | mark (n : Ptr)
  | links (n : Ptr) (rest : List String)
  | edges (rest : List Ptr)
  | finished
  | crashed
deriving DecidableEq, Repr

/-- One step of a worker: one call on a shared object (`Add`, `IsEmpty`, `Pop`,
`IsVisited`, `Visit`, `AddCountForLink`), executed atomically, with the worker-local
control flow that follows it. A worker at `mark n` has seen `!tracker.IsVisited(n)` hold. -/
def stepWorker (h : Heap) (pc : Pc) (s : Shared) : Pc × Shared :=
  match pc with
  | Pc.start entryPoint => (Pc.test, { s with queue := s.queue.Add entryPoint })
  | Pc.test => if s.queue.IsEmpty then (Pc.finished, s) else (Pc.pop, s)
  | Pc.pop =>
    match s.queue.Pop with
    | none => (Pc.crashed, s)
    | some (n, q) => (Pc.check n, { s with queue := q })
  | Pc.check n => if !s.tracker.IsVisited n then (Pc.mark n, s) else (Pc.test, s)
  | Pc.mark n =>
    match deref h n with
    | none => (Pc.crashed, { s with tracker := s.tracker.Visit n })
    | some node => (Pc.links n node.GetLinks, { s with tracker := s.tracker.Visit n })
  | Pc.links n [] =>
    match deref h n with
    | none => (Pc.crashed, s)
    | some node => (Pc.edges node.edges, s)
  | Pc.links n (link :: rest) =>
    (Pc.links n rest, { s with counter := s.counter.AddCountForLink link })
  | Pc.edges [] => (Pc.test, s)
  | Pc.edges (edge :: rest) => (Pc.edges rest, { s with queue := s.queue.Add edge })
  | Pc.finished => (Pc.finished, s)
  | Pc.crashed => (Pc.crashed, s)

/-- The goroutines of `main` and the objects they share. -/
structure Program where
  workers : List Pc
  shared : Shared
deriving DecidableEq, Repr

/-- The scheduler lets worker `i` make its next step. A panic in one goroutine ends the
whole program: nothing moves once a worker has crashed. -/
def stepProgram (h : Heap) (c : Program) (i : Nat) : Program :=
  if c.workers.contains Pc.crashed then c
  else
    match c.workers[i]? with
    | none => c
    | some pc =>
      let r := stepWorker h pc c.shared
      { workers := c.workers.set i r.1, shared := r.2 }

/-- The program after the workers have moved in the order `schedule` gives. -/
def runSchedule (h : Heap) (c : Program) (schedule : List Nat) : Program :=
  schedule.foldl (stepProgram h) c

/-- The state `main` is in once it has launched one goroutine per entry point. -/
def mainProgram (entryPoints : List Ptr) : Program :=
  { workers := entryPoints.map Pc.start, shared := initShared }

/-- Every goroutine has returned, so `wg.Wait()` returns. -/
def Program.allFinished (c : Program) : Bool := c.workers.all (fun pc => pc == Pc.finished)

/-- A schedule of the two workers of `main` on the default graph after which both have
popped the node `three` and both have seen it not visited. -/
def raceSchedule : List Nat :=
  [0, 1] ++ List.replicate 11 0 ++ List.replicate 12 1 ++ List.replicate 13 0 ++
    List.replicate 3 1

/-- A continuation of `raceSchedule` that lets worker 0 and then worker 1 run until both
have returned. -/
def finishSchedule : List Nat := List.replicate 73 0 ++ List.replicate 19 1

/-- The schedule in which worker 0 runs until it returns and worker 1 runs after it. -/
def sequentialSchedule : List Nat := List.replicate 110 0 ++ List.replicate 5 1

/-- Two entry points `a` (cell 0) and `b` (cell 1) that share the downstream node `c`. -/
def sharedHeap : Heap :=
  [ NewNode "a" "XZ" [some 2],
    NewNode "b" "YZ" [some 2],
    NewNode "c" "ZW" [] ]

/-- The two-node cycle `A -> B -> A`. -/
def cycleHeap : Heap :=
  [ NewNode "A" "XY" [some 1],
    NewNode "B" "YZ" [some 0] ]

/-! ## Reachability and tallies -/

/-- There is an edge from the node at `a` to `b`. -/
def Edge (h : Heap) (a b : Ptr) : Prop :=
  ∃ node, deref h a = some node ∧ b ∈ node.edges

/-- The pointer `b` is reachable from `a` along edges (`a` itself included). -/
def Reach (h : Heap) (a b : Ptr) : Prop := Relation.ReflTransGen (Edge h) a b

/-- Number of occurrences of the symbol `sym` in the links of the node at `p`. -/
def occurrences (h : Heap) (sym : String) (p : Ptr) : Nat :=
  match deref h p with
  | none => 0
  | some node => node.GetLinks.count sym

/-- Sum of the occurrences of `sym` over a list of nodes. -/
def tally (h : Heap) (sym : String) (nodes : List Ptr) : Nat :=
  (nodes.map (occurrences h sym)).sum

/-- The counter entry that results from adding `n` occurrences to an entry. -/
def bump (old : Option Int) (n : Nat) : Option Int :=
  if n = 0 then old else some (old.getD 0 + (n : Int))

/-- The nodes the tracker has marked, in the order they were first marked. -/
def VisitedTracker.nodes (t : VisitedTracker) : List Ptr := mapKeys t.visited

/-! ## Invariants of the traversal -/

/-- What a completed traversal loop has done, relative to the state `s` it started in:
`new` lists the nodes it marked, in order. -/
structure LoopResult (h : Heap) (s s' : Shared) (new : List Ptr) : Prop where
  queue_empty : s'.queue.queue = []
  nodes_eq : s'.tracker.nodes = s.tracker.nodes ++ new
  nodes_nodup : s.tracker.nodes.Nodup → s'.tracker.nodes.Nodup
  new_reach : ∀ p ∈ new, ∃ r ∈ s.queue.queue, Reach h r p
  new_valid : ∀ p ∈ new, validPtr h p = true
  queue_marked : ∀ p ∈ s.queue.queue, p ∈ s'.tracker.nodes
  new_closed : ∀ p ∈ new, ∀ e, Edge h p e → e ∈ s'.tracker.nodes
  counts : ∀ sym, s'.counter.get sym = bump (s.counter.get sym) (tally h sym new)
  counter_nodup : (mapKeys s.counter.counter).Nodup → (mapKeys s'.counter.counter).Nodup

/-- The state between two workers of a sequential run that started from empty objects:
the nodes marked so far are exactly those reachable from the entry points in
`handled`, and the counter holds their tally. -/
structure Settled (h : Heap) (handled : List Ptr) (s : Shared) : Prop where
  queue_empty : s.queue.queue = []
  nodes_nodup : s.tracker.nodes.Nodup
  nodes_iff : ∀ p, p ∈ s.tracker.nodes ↔ ∃ e ∈ handled, Reach h e p
  counts : ∀ sym, s.counter.get sym = bump none (tally h sym s.tracker.nodes)
  counter_nodup : (mapKeys s.counter.counter).Nodup

/-- The only worker of a program is at `pop` only while the queue has an element. -/
def PopGuarded (c : Program) : Prop :=
  ∃ pc, c.workers = [pc] ∧ (pc = Pc.pop → c.shared.queue.IsEmpty = false)

/-! ## Invariants of the construction -/

/-- The configuration stored under a name: `config.NodeConfigs[name]`, the zero value when
the map has no such key. -/
def GraphConfig.lookup (config : GraphConfig) (name : String) : NodeConfig :=
  (mapGet config.NodeConfigs name).getD NodeConfig.zero

/-- The keys of `NodeConfigs` are pairwise distinct (it is a map), every key equals the
name field of its entry, and every edge name of every entry is a key. -/
def GraphConfig.wellFormed (config : GraphConfig) : Bool :=
  decide (mapKeys config.NodeConfigs).Nodup &&
    config.NodeConfigs.all (fun kc =>
      kc.2.name == kc.1 && kc.2.edges.all (fun e => (mapKeys config.NodeConfigs).contains e))

/-- Every entry-point name is a key of `NodeConfigs`. -/
def GraphConfig.entriesDefined (config : GraphConfig) : Bool :=
  config.EntryPoints.all (fun e => (mapKeys config.NodeConfigs).contains e)

/-- The total number of edge names over all entries of `NodeConfigs`. -/
def GraphConfig.edgeCount (config : GraphConfig) : Nat :=
  (config.NodeConfigs.map (fun kc => kc.2.edges.length)).sum

/-- One round of the edge loop of `CreateNodeFromConfig` for the node at `n`: the recursive
call for `edgeName`, then `n.AddEdge(edgeNode)`. -/
def edgeStep (config : GraphConfig) (fuel : Nat) (n : Ptr) (acc : Option (Heap × Graph))
    (edgeName : String) : Option (Heap × Graph) :=
  match acc with
  | none => none
  | some st =>
    match CreateNodeFromConfig config fuel edgeName st with
    | none => none
    | some (edgeNode, (h2, grph2)) => some (heapAddEdge h2 n edgeNode, grph2)

/-- One round of the first loop of `ConfigGraph`: the call of `CreateNodeFromConfig` for
the entry stored under `key`. -/
def nodeStep (config : GraphConfig) (fuel : Nat) (acc : Option (Heap × Graph))
    (key : String) : Option (Heap × Graph) :=
  match acc with
  | none => none
  | some st =>
    (CreateNodeFromConfig config fuel (config.lookup key).name st).map Prod.snd

/-- The names of the heap cells, in allocation order. -/
def heapNames (h : Heap) : List String := h.map (fun n => n.name)

/-- The map that sends the `j`-th name of a list to the pointer `some (i + j)`. -/
def indexNames : Nat → List String → List (String × Ptr)
  | _, [] => []
  | i, name :: rest => (name, some i) :: indexNames (i + 1) rest

/-- The pointer `created[name]`: nil when the map has no such key. -/
def resolve (created : List (String × Ptr)) (name : String) : Ptr :=
  (mapGet created name).getD none

/-- The number of keys of `NodeConfigs` for which no node has been allocated yet. -/
def missingNodes (config : GraphConfig) (h : Heap) : Nat :=
  ((mapKeys config.NodeConfigs).filter (fun k => !(heapNames h).contains k)).length

/-- The heap and the `Created` map agree during the construction: `Created` maps the name of
cell `i` to `some i`, no two cells have the same name, and every name is a key of the
configuration. -/
structure Building (config : GraphConfig) (h : Heap) (g : Graph) : Prop where
  created_eq : g.Created = indexNames 0 (heapNames h)
  names_nodup : (heapNames h).Nodup
  names_keys : ∀ name ∈ heapNames h, name ∈ mapKeys config.NodeConfigs

/-- The node `c` is fully built with respect to the map `created`: it carries the links
configured under its name and its edges are the created nodes of the configured edge
names, in order, each of which has an entry in `created`. -/
def Finished (config : GraphConfig) (created : List (String × Ptr)) (c : Node) : Prop :=
  c.links = (config.lookup c.name).links ∧
  c.edges = (config.lookup c.name).edges.map (resolve created) ∧
  ∀ e ∈ (config.lookup c.name).edges, e ∈ mapKeys created

/-- The number of edge names configured for the nodes of a list. -/
def configuredEdges (config : GraphConfig) (cells : List Node) : Nat :=
  (cells.map (fun c => (config.lookup c.name).edges.length)).sum

/-- What a call `CreateNodeFromConfig(name, config, grph)` has done when it returns `p`,
relative to the heap `h` and graph `g` it started from. -/
structure Built (config : GraphConfig) (h : Heap) (g : Graph) (name : String) (p : Ptr)
    (h' : Heap) (g' : Graph) : Prop where
  building : Building config h' g'
  named : name ∈ heapNames h'
  ptr : p = resolve g'.Created name
  entries : g'.EntryPoints = g.EntryPoints
  grown : ∃ new extra, h' = h ++ new ∧ (∀ c ∈ new, Finished config g'.Created c) ∧
    g'.Nodes = g.Nodes ++ extra ∧ extra.length = 1 + configuredEdges config new ∧
    p ∈ extra ∧ ∀ x ∈ extra, validPtr h' x = true

/-- The node `name` while its edge loop runs: the edge names `handled` have been resolved
and attached. -/
def partialNode (config : GraphConfig) (created : List (String × Ptr)) (name : String)
    (handled : List String) : Node :=
  { name := name, links := (config.lookup name).links, edges := handled.map (resolve created) }

/-- The state of the edge loop of `CreateNodeFromConfig` for the node `name`, allocated at
cell `h.length`, once the edge names `handled` have been processed. -/
structure EdgeLoop (config : GraphConfig) (h : Heap) (g : Graph) (name : String)
    (handled : List String) (hc : Heap) (gc : Graph) : Prop where
  building : Building config hc gc
  handled_keys : ∀ e ∈ handled, e ∈ mapKeys gc.Created
  entries : gc.EntryPoints = g.EntryPoints
  grown : ∃ newer extra,
    hc = h ++ partialNode config gc.Created name handled :: newer ∧
    (∀ c ∈ newer, Finished config gc.Created c) ∧
    gc.Nodes = g.Nodes ++ extra ∧ extra.length = handled.length + configuredEdges config newer ∧
    ∀ x ∈ extra, validPtr hc x = true

/-- The state of the first loop of `ConfigGraph` once the keys `handled` have been
processed. -/
structure NodeLoop (config : GraphConfig) (handled : List String) (h : Heap) (g : Graph) :
    Prop where
  building : Building config h g
  finished : ∀ c ∈ h, Finished config g.Created c
  handled_named : ∀ k ∈ handled, k ∈ heapNames h
  handled_listed : ∀ k ∈ handled, resolve g.Created k ∈ g.Nodes
  nodes_length : g.Nodes.length = handled.length + configuredEdges config h
  nodes_valid : ∀ x ∈ g.Nodes, validPtr h x = true
  entries : g.EntryPoints = []

/-- A cyclic configuration: `A -> B -> A`, and `A` has an edge to itself. -/
def cyclicConfig : GraphConfig :=
  { NodeConfigs :=
      [ ("A", { name := "A", links := "XY", edges := ["B", "A"] }),
        ("B", { name := "B", links := "YZ", edges := ["A"] }) ],
    EntryPoints := ["A"] }

/-- A configuration whose node `a` has an edge to the name `ghost`, which is no key, and
whose entry-point list names `nowhere`, which is no key either. -/
def ghostConfig : GraphConfig :=
  { NodeConfigs := [ ("a", { name := "a", links := "X", edges := ["ghost"] }) ],
    EntryPoints := ["a", "nowhere"] }

/-- The cyclic configuration with a second entry point `nowhere`, which is no key. -/
def danglingEntryConfig : GraphConfig :=
  { cyclicConfig with EntryPoints := ["A", "nowhere"] }

/-- The link symbols of a links string, as `GetLinks` returns them. -/
def symbolsOf (links : String) : List String := links.toList.map String.singleton

/-- The link symbols of all entries of a configuration. -/
def GraphConfig.symbols (config : GraphConfig) : List String :=
  (config.NodeConfigs.map (fun kc => symbolsOf kc.2.links)).flatten

/-- The pointers to all cells of a heap. -/
def allCells (h : Heap) : List Ptr := (List.range h.length).map some

/-- The counts of the link symbols of the default configuration. -/
def expectedCounts : List (String × Int) :=
  [("A", 8), ("B", 7), ("C", 1), ("D", 2), ("E", 1), ("F", 2), ("G", 1), ("H", 2), ("J", 1),
    ("K", 2), ("O", 1), ("S", 1), ("V", 1)]

/-! ## Lemmas on maps -/

theorem mapGet_mapSet_same {κ ν : Type} [DecidableEq κ] (m : List (κ × ν)) (k : κ) (v : ν) :
    mapGet (mapSet m k v) k = some v := by
  induction m with
  | nil => simp [mapSet, mapGet]
  | cons p rest ih =>
    obtain ⟨k', v'⟩ := p
    by_cases hk : k' = k
    · simp [mapSet, mapGet, hk]
    · simp [mapSet, mapGet, hk, ih]

theorem mapGet_mapSet_other {κ ν : Type} [DecidableEq κ] (m : List (κ × ν)) (k k2 : κ) (v : ν)
    (hne : k2 ≠ k) : mapGet (mapSet m k v) k2 = mapGet m k2 := by
  induction m with
  | nil =>
    have : ¬ k = k2 := fun h => hne h.symm
    simp [mapSet, mapGet, this]
  | cons p rest ih =>
    obtain ⟨k', v'⟩ := p
    by_cases hk : k' = k
    · subst hk
      have : ¬ k' = k2 := fun h => hne h.symm
      simp [mapSet, mapGet, this]
    · by_cases hk2 : k' = k2
      · subst hk2
        simp [mapSet, mapGet, hk]
      · simp [mapSet, mapGet, hk, hk2, ih]

theorem mapGet_isSome_iff {κ ν : Type} [DecidableEq κ] (m : List (κ × ν)) (k : κ) :
    (mapGet m k).isSome = true ↔ k ∈ mapKeys m := by
  induction m with
  | nil => simp [mapGet, mapKeys]
  | cons p rest ih =>
    obtain ⟨k', v'⟩ := p
    by_cases hk : k' = k
    · simp [mapGet, mapKeys, hk]
    · have hk' : ¬ k = k' := fun h => hk h.symm
      simp only [mapGet, hk, if_false, ih, mapKeys, List.map_cons, List.mem_cons, hk', false_or]

theorem mapKeys_mapSet_present {κ ν : Type} [DecidableEq κ] (m : List (κ × ν)) (k : κ) (v : ν)
    (hk : k ∈ mapKeys m) : mapKeys (mapSet m k v) = mapKeys m := by
  induction m with
  | nil => simp [mapKeys] at hk
  | cons p rest ih =>
    obtain ⟨k', v'⟩ := p
    by_cases hk' : k' = k
    · simp [mapSet, mapKeys, hk']
    · have hmem : k ∈ mapKeys rest := by
        simp only [mapKeys, List.map_cons, List.mem_cons] at hk
        rcases hk with h | h
        · exact absurd h.symm hk'
        · exact h
      have := ih hmem
      simp only [mapKeys] at this
      simp [mapSet, mapKeys, hk', this]

theorem mapKeys_mapSet_absent {κ ν : Type} [DecidableEq κ] (m : List (κ × ν)) (k : κ) (v : ν)
    (hk : k ∉ mapKeys m) : mapKeys (mapSet m k v) = mapKeys m ++ [k] := by
  induction m with
  | nil => simp [mapSet, mapKeys]
  | cons p rest ih =>
    obtain ⟨k', v'⟩ := p
    simp only [mapKeys, List.map_cons, List.mem_cons, not_or] at hk
    have hk' : ¬ k' = k := fun h => hk.1 h.symm
    have := ih hk.2
    simp only [mapKeys] at this
    simp [mapSet, mapKeys, hk', this]

theorem mem_mapKeys_mapSet {κ ν : Type} [DecidableEq κ] (m : List (κ × ν)) (k k2 : κ) (v : ν) :
    k2 ∈ mapKeys (mapSet m k v) ↔ k2 = k ∨ k2 ∈ mapKeys m := by
  by_cases hk : k ∈ mapKeys m
  · rw [mapKeys_mapSet_present m k v hk]
    constructor
    · exact Or.inr
    · rintro (h | h)
      · exact h ▸ hk
      · exact h
  · rw [mapKeys_mapSet_absent m k v hk]
    simp [or_comm]

theorem nodup_mapKeys_mapSet {κ ν : Type} [DecidableEq κ] (m : List (κ × ν)) (k : κ) (v : ν)
    (hm : (mapKeys m).Nodup) : (mapKeys (mapSet m k v)).Nodup := by
  by_cases hk : k ∈ mapKeys m
  · rw [mapKeys_mapSet_present m k v hk]; exact hm
  · rw [mapKeys_mapSet_absent m k v hk]
    exact List.Nodup.append hm (List.nodup_singleton k) (by simpa using hk)

/-! ## Lemmas on the counter -/

theorem get_AddCountForLink_same (c : Counter) (s : String) :
    (c.AddCountForLink s).get s = some ((c.get s).getD 0 + 1) := by
  unfold Counter.AddCountForLink Counter.get
  simp only [mapGet_mapSet_same]
  cases h : mapGet c.counter s with
  | none => simp [mapGet_mapSet_same]
  | some v => simp [h]

theorem get_AddCountForLink_other (c : Counter) (s s2 : String) (hne : s2 ≠ s) :
    (c.AddCountForLink s).get s2 = c.get s2 := by
  unfold Counter.AddCountForLink Counter.get
  simp only [mapGet_mapSet_other _ _ _ _ hne]
  split
  · rfl
  · exact mapGet_mapSet_other _ _ _ _ hne

theorem mem_keys_AddCountForLink (c : Counter) (s s2 : String) :
    s2 ∈ mapKeys (c.AddCountForLink s).counter ↔ s2 = s ∨ s2 ∈ mapKeys c.counter := by
  unfold Counter.AddCountForLink
  simp only [mem_mapKeys_mapSet]
  split
  · tauto
  · rw [mem_mapKeys_mapSet]; tauto

theorem nodup_keys_AddCountForLink (c : Counter) (s : String)
    (hc : (mapKeys c.counter).Nodup) : (mapKeys (c.AddCountForLink s).counter).Nodup := by
  unfold Counter.AddCountForLink
  apply nodup_mapKeys_mapSet
  split
  · exact hc
  · exact nodup_mapKeys_mapSet _ _ _ hc

theorem get_countNodeLinks (c : Counter) (links : List String) (s : String) :
    (countNodeLinks c links).get s =
      if links.count s = 0 then c.get s else some ((c.get s).getD 0 + (links.count s : Int)) := by
  induction links generalizing c with
  | nil => simp [countNodeLinks]
  | cons l ls ih =>
    have hstep : countNodeLinks c (l :: ls) = countNodeLinks (c.AddCountForLink l) ls := by
      simp [countNodeLinks]
    rw [hstep, ih]
    by_cases hl : l = s
    · subst hl
      rw [get_AddCountForLink_same]
      by_cases h0 : ls.count l = 0
      · simp [h0]
      · simp [h0]; ring
    · have hne : s ≠ l := fun h => hl h.symm
      rw [get_AddCountForLink_other _ _ _ hne]
      simp [List.count_cons, hl]

theorem nodup_keys_countNodeLinks (c : Counter) (links : List String)
    (hc : (mapKeys c.counter).Nodup) : (mapKeys (countNodeLinks c links).counter).Nodup := by
  induction links generalizing c with
  | nil => simpa [countNodeLinks] using hc
  | cons l ls ih =>
    have hstep : countNodeLinks c (l :: ls) = countNodeLinks (c.AddCountForLink l) ls := by
      simp [countNodeLinks]
    rw [hstep]
    exact ih _ (nodup_keys_AddCountForLink c l hc)

theorem enqueueEdges_queue (q : Queue) (edges : List Ptr) :
    (enqueueEdges q edges).queue = q.queue ++ edges := by
  induction edges generalizing q with
  | nil => simp [enqueueEdges]
  | cons e es ih =>
    have hstep : enqueueEdges q (e :: es) = enqueueEdges (q.Add e) es := by
      simp [enqueueEdges]
    rw [hstep, ih]
    simp [Queue.Add]

/-! ## Lemmas on tallies -/

theorem bump_bump (old : Option Int) (a b : Nat) : bump (bump old a) b = bump old (a + b) := by
  unfold bump
  by_cases ha : a = 0 <;> by_cases hb : b = 0 <;> simp [ha, hb]
  omega

theorem tally_cons (h : Heap) (sym : String) (p : Ptr) (ps : List Ptr) :
    tally h sym (p :: ps) = occurrences h sym p + tally h sym ps := by
  simp [tally]

theorem tally_append (h : Heap) (sym : String) (ps qs : List Ptr) :
    tally h sym (ps ++ qs) = tally h sym ps + tally h sym qs := by
  simp [tally]

theorem tally_perm (h : Heap) (sym : String) {ps qs : List Ptr} (hp : ps.Perm qs) :
    tally h sym ps = tally h sym qs := by
  unfold tally
  exact (hp.map _).sum_eq

theorem get_countNodeLinks_bump (c : Counter) (links : List String) (s : String) :
    (countNodeLinks c links).get s = bump (c.get s) (links.count s) := by
  rw [get_countNodeLinks]; rfl

/-! ## Unfolding the traversal loop -/

theorem isVisited_iff (t : VisitedTracker) (p : Ptr) :
    t.isVisited p = true ↔ p ∈ t.nodes := by
  unfold VisitedTracker.isVisited VisitedTracker.nodes
  exact mapGet_isSome_iff _ _

theorem loop_empty (h : Heap) (fuel : Nat) (s : Shared) (hq : s.queue.queue = []) :
    countLinksLoop h (fuel + 1) s = Outcome.done s := by
  simp [countLinksLoop, Queue.IsEmpty, hq]

theorem loop_visited (h : Heap) (fuel : Nat) (s : Shared) (n : Ptr) (rest : List Ptr)
    (hq : s.queue.queue = n :: rest) (hv : s.tracker.isVisited n = true) :
    countLinksLoop h (fuel + 1) s = countLinksLoop h fuel { s with queue := { queue := rest } } := by
  simp [countLinksLoop, Queue.IsEmpty, Queue.Pop, hq, VisitedTracker.IsVisited, hv]

theorem loop_fresh (h : Heap) (fuel : Nat) (s : Shared) (n : Ptr) (rest : List Ptr) (node : Node)
    (hq : s.queue.queue = n :: rest) (hv : s.tracker.isVisited n = false)
    (hd : deref h n = some node) :
    countLinksLoop h (fuel + 1) s = countLinksLoop h fuel
      { counter := countNodeLinks s.counter node.GetLinks,
        queue := enqueueEdges { queue := rest } node.edges,
        tracker := s.tracker.Visit n } := by
  simp [countLinksLoop, Queue.IsEmpty, Queue.Pop, hq, VisitedTracker.IsVisited, hv, hd]

theorem loop_nil (h : Heap) (fuel : Nat) (s : Shared) (n : Ptr) (rest : List Ptr)
    (hq : s.queue.queue = n :: rest) (hv : s.tracker.isVisited n = false)
    (hd : deref h n = none) :
    countLinksLoop h (fuel + 1) s = Outcome.panicked := by
  simp [countLinksLoop, Queue.IsEmpty, Queue.Pop, hq, VisitedTracker.IsVisited, hv, hd]

/-! ## The fuel bound -/

theorem sum_map_change (l : List Nat) (f g : Nat → Nat) (n d : Nat) (hl : l.Nodup)
    (hn : n ∈ l) (hfg : ∀ i, i ≠ n → f i = g i) (hd : f n = g n + d) :
    (l.map f).sum = (l.map g).sum + d := by
  induction l with
  | nil => simp at hn
  | cons a rest ih =>
    have hnd := List.nodup_cons.mp hl
    by_cases ha : a = n
    · subst ha
      have hrest : rest.map f = rest.map g := by
        apply List.map_congr_left
        intro i hi
        exact hfg i (fun h => hnd.1 (h ▸ hi))
      simp [hrest, hd]; omega
    · have hmem : n ∈ rest := by
        rcases List.mem_cons.mp hn with h | h
        · exact absurd h.symm ha
        · exact h
      have := ih hnd.2 hmem
      simp [this, hfg a ha]; omega

theorem isVisited_Visit (t : VisitedTracker) (n p : Ptr) :
    (t.Visit n).isVisited p = true ↔ p = n ∨ t.isVisited p = true := by
  rw [isVisited_iff, isVisited_iff]
  unfold VisitedTracker.Visit VisitedTracker.nodes
  exact mem_mapKeys_mapSet _ _ _ _

theorem unvisitedEdges_Visit (h : Heap) (t : VisitedTracker) (n : Ptr) (node : Node)
    (hd : deref h n = some node) (hv : t.isVisited n = false) :
    unvisitedEdges h t = unvisitedEdges h (t.Visit n) + node.edges.length := by
  cases n with
  | none => simp [deref] at hd
  | some i =>
    simp only [deref] at hd
    have hi : i < h.length := by
      by_contra hge
      rw [List.getElem?_eq_none (by omega)] at hd
      cases hd
    unfold unvisitedEdges
    apply sum_map_change _ _ _ i _ (List.nodup_range _) (List.mem_range.mpr hi)
    · intro j hj
      have hne : (some j : Ptr) ≠ some i := fun hh => hj (Option.some.inj hh)
      by_cases hvj : t.isVisited (some j) = true
      · have : (t.Visit (some i)).isVisited (some j) = true :=
          (isVisited_Visit t _ _).mpr (Or.inr hvj)
        simp [hvj, this]
      · have : ¬ (t.Visit (some i)).isVisited (some j) = true := by
          rw [isVisited_Visit]
          rintro (hh | hh)
          · exact hne hh
          · exact hvj hh
        simp [hvj, this]
    · have : (t.Visit (some i)).isVisited (some i) = true :=
        (isVisited_Visit t _ _).mpr (Or.inl rfl)
      simp [hv, this, hd]

/-! ## The traversal loop, from any state -/

theorem deref_mem (h : Heap) (p : Ptr) (node : Node) (hd : deref h p = some node) :
    node ∈ h := by
  cases p with
  | none => simp [deref] at hd
  | some i => exact List.getElem?_mem hd

theorem edge_valid (h : Heap) (hwf : wellFormed h = true) (p e : Ptr) (he : Edge h p e) :
    validPtr h e = true := by
  obtain ⟨node, hd, hmem⟩ := he
  have hnode := deref_mem h p node hd
  unfold wellFormed at hwf
  rw [List.all_eq_true] at hwf
  have := hwf node hnode
  rw [List.all_eq_true] at this
  exact this e hmem

theorem nodes_Visit_fresh (t : VisitedTracker) (n : Ptr) (hv : t.isVisited n = false) :
    (t.Visit n).nodes = t.nodes ++ [n] := by
  unfold VisitedTracker.Visit VisitedTracker.nodes
  apply mapKeys_mapSet_absent
  intro hmem
  have := (isVisited_iff t n).mpr hmem
  rw [hv] at this
  cases this

theorem loop_spec (h : Heap) (hwf : wellFormed h = true) :
    ∀ (fuel : Nat) (s : Shared), (∀ p ∈ s.queue.queue, validPtr h p = true) →
      loopFuel h s ≤ fuel →
      ∃ s' new, countLinksLoop h fuel s = Outcome.done s' ∧ LoopResult h s s' new := by
  intro fuel
  induction fuel with
  | zero =>
    intro s _ hf
    unfold loopFuel at hf
    omega
  | succ fuel ih =>
    intro s hvalid hf
    cases hq : s.queue.queue with
    | nil =>
      refine ⟨s, [], loop_empty h fuel s hq, ?_⟩
      exact
        { queue_empty := hq
          nodes_eq := (List.append_nil _).symm
          nodes_nodup := fun hnd => hnd
          new_reach := by simp
          new_valid := by simp
          queue_marked := by intro p hp; rw [hq] at hp; cases hp
          new_closed := by simp
          counts := by intro sym; simp [tally, bump]
          counter_nodup := fun hc => hc }
    | cons n rest =>
      have hmemq : ∀ p, p ∈ s.queue.queue ↔ p = n ∨ p ∈ rest := by
        intro p; rw [hq]; exact List.mem_cons
      have hvalid_rest : ∀ p ∈ rest, validPtr h p = true := fun p hp =>
        hvalid p ((hmemq p).mpr (Or.inr hp))
      by_cases hv : s.tracker.isVisited n = true
      · -- the popped node is already marked: it is dropped
        rw [loop_visited h fuel s n rest hq hv]
        have hf1 : loopFuel h { s with queue := { queue := rest } } ≤ fuel := by
          unfold loopFuel at hf
          simp only [hq, List.length_cons] at hf
          show rest.length + unvisitedEdges h s.tracker + 1 ≤ fuel
          omega
        obtain ⟨s', new, hrun, hres⟩ := ih { s with queue := { queue := rest } } hvalid_rest hf1
        refine ⟨s', new, hrun, ?_⟩
        exact
          { queue_empty := hres.queue_empty
            nodes_eq := hres.nodes_eq
            nodes_nodup := hres.nodes_nodup
            new_reach := by
              intro p hp
              obtain ⟨r, hr, hreach⟩ := hres.new_reach p hp
              exact ⟨r, (hmemq r).mpr (Or.inr hr), hreach⟩
            new_valid := hres.new_valid
            queue_marked := by
              intro p hp
              rcases (hmemq p).mp hp with hpn | hpr
              · subst hpn
                rw [hres.nodes_eq]
                exact List.mem_append_left _ ((isVisited_iff _ _).mp hv)
              · exact hres.queue_marked p hpr
            new_closed := hres.new_closed
            counts := hres.counts
            counter_nodup := hres.counter_nodup }
      · -- the popped node is marked, counted, and its edges are enqueued
        have hv' : s.tracker.isVisited n = false := by
          cases hb : s.tracker.isVisited n with
          | true => exact absurd hb hv
          | false => rfl
        have hn_valid : validPtr h n = true := hvalid n ((hmemq n).mpr (Or.inl rfl))
        obtain ⟨node, hd⟩ := Option.isSome_iff_exists.mp hn_valid
        rw [loop_fresh h fuel s n rest node hq hv' hd]
        have hnodes1 := nodes_Visit_fresh s.tracker n hv'
        have hn_notin : n ∉ s.tracker.nodes := fun hmem => hv ((isVisited_iff _ _).mpr hmem)
        have hvalid1 : ∀ p ∈ (enqueueEdges { queue := rest } node.edges).queue,
            validPtr h p = true := by
          intro p hp
          rw [enqueueEdges_queue] at hp
          rcases List.mem_append.mp hp with hpr | hpe
          · exact hvalid_rest p hpr
          · exact edge_valid h hwf n p ⟨node, hd, hpe⟩
        have hnd1 : s.tracker.nodes.Nodup → (s.tracker.Visit n).nodes.Nodup := by
          intro hnd
          rw [hnodes1]
          exact List.Nodup.append hnd (List.nodup_singleton n) (by simpa using hn_notin)
        have hf1 : loopFuel h
            { counter := countNodeLinks s.counter node.GetLinks,
              queue := enqueueEdges { queue := rest } node.edges,
              tracker := s.tracker.Visit n } ≤ fuel := by
          have hpot := unvisitedEdges_Visit h s.tracker n node hd hv'
          unfold loopFuel at hf ⊢
          simp only [hq, List.length_cons] at hf
          simp only [enqueueEdges_queue, List.length_append]
          omega
        obtain ⟨s', new1, hrun, hres⟩ := ih _ hvalid1 hf1
        refine ⟨s', n :: new1, hrun, ?_⟩
        have hnodes' : s'.tracker.nodes = s.tracker.nodes ++ n :: new1 := by
          rw [hres.nodes_eq]
          simp only [hnodes1, List.append_assoc, List.singleton_append]
        exact
          { queue_empty := hres.queue_empty
            nodes_eq := hnodes'
            nodes_nodup := fun hnd => hres.nodes_nodup (hnd1 hnd)
            new_reach := by
              intro p hp
              rcases List.mem_cons.mp hp with hpn | hp1
              · exact ⟨n, (hmemq n).mpr (Or.inl rfl), hpn ▸ Relation.ReflTransGen.refl⟩
              · obtain ⟨r, hr, hreach⟩ := hres.new_reach p hp1
                simp only [enqueueEdges_queue] at hr
                rcases List.mem_append.mp hr with hrr | hre
                · exact ⟨r, (hmemq r).mpr (Or.inr hrr), hreach⟩
                · exact ⟨n, (hmemq n).mpr (Or.inl rfl),
                    Relation.ReflTransGen.head ⟨node, hd, hre⟩ hreach⟩
            new_valid := by
              intro p hp
              rcases List.mem_cons.mp hp with hpn | hp1
              · exact hpn ▸ hn_valid
              · exact hres.new_valid p hp1
            queue_marked := by
              intro p hp
              rcases (hmemq p).mp hp with hpn | hpr
              · rw [hnodes', hpn]
                exact List.mem_append_right _ (List.mem_cons_self _ _)
              · apply hres.queue_marked
                simp only [enqueueEdges_queue]
                exact List.mem_append_left _ hpr
            new_closed := by
              intro p hp e he
              rcases List.mem_cons.mp hp with hpn | hp1
              · subst hpn
                obtain ⟨node2, hd2, hmem⟩ := he
                rw [hd] at hd2
                cases hd2
                apply hres.queue_marked
                simp only [enqueueEdges_queue]
                exact List.mem_append_right _ hmem
              · exact hres.new_closed p hp1 e he
            counts := by
              intro sym
              rw [hres.counts sym]
              simp only
              rw [get_countNodeLinks_bump, bump_bump, tally_cons]
              simp [occurrences, hd]
            counter_nodup := by
              intro hc
              exact hres.counter_nodup (nodup_keys_countNodeLinks _ _ hc) }

theorem loop_fuel_mono (h : Heap) (fuel : Nat) :
    ∀ (s s' : Shared) (k : Nat), countLinksLoop h fuel s = Outcome.done s' →
      countLinksLoop h (fuel + k) s = Outcome.done s' := by
  induction fuel with
  | zero => intro s s' k hrun; simp [countLinksLoop] at hrun
  | succ fuel ih =>
    intro s s' k hrun
    have hk : fuel + 1 + k = (fuel + k) + 1 := by omega
    rw [hk]
    cases hq : s.queue.queue with
    | nil =>
      rw [loop_empty h fuel s hq] at hrun
      rw [loop_empty h (fuel + k) s hq]
      exact hrun
    | cons n rest =>
      cases hv : s.tracker.isVisited n with
      | true =>
        rw [loop_visited h fuel s n rest hq hv] at hrun
        rw [loop_visited h (fuel + k) s n rest hq hv]
        exact ih _ _ k hrun
      | false =>
        cases hd : deref h n with
        | none =>
          rw [loop_nil h fuel s n rest hq hv hd] at hrun
          cases hrun
        | some node =>
          rw [loop_fresh h fuel s n rest node hq hv hd] at hrun
          rw [loop_fresh h (fuel + k) s n rest node hq hv hd]
          exact ih _ _ k hrun

theorem loop_fuel_stable (h : Heap) (fuel : Nat) :
    ∀ (s : Shared) (k : Nat), countLinksLoop h fuel s ≠ Outcome.outOfFuel →
      countLinksLoop h (fuel + k) s = countLinksLoop h fuel s := by
  induction fuel with
  | zero => intro s k hrun; simp [countLinksLoop] at hrun
  | succ fuel ih =>
    intro s k hrun
    have hk : fuel + 1 + k = (fuel + k) + 1 := by omega
    rw [hk]
    cases hq : s.queue.queue with
    | nil => rw [loop_empty h fuel s hq, loop_empty h (fuel + k) s hq]
    | cons n rest =>
      cases hv : s.tracker.isVisited n with
      | true =>
        rw [loop_visited h fuel s n rest hq hv] at hrun ⊢
        rw [loop_visited h (fuel + k) s n rest hq hv]
        exact ih _ k hrun
      | false =>
        cases hd : deref h n with
        | none => rw [loop_nil h fuel s n rest hq hv hd, loop_nil h (fuel + k) s n rest hq hv hd]
        | some node =>
          rw [loop_fresh h fuel s n rest node hq hv hd] at hrun ⊢
          rw [loop_fresh h (fuel + k) s n rest node hq hv hd]
          exact ih _ k hrun

theorem loop_no_timeout (h : Heap) (fuel : Nat) :
    ∀ s : Shared, loopFuel h s ≤ fuel → countLinksLoop h fuel s ≠ Outcome.outOfFuel := by
  induction fuel with
  | zero =>
    intro s hf
    unfold loopFuel at hf
    omega
  | succ fuel ih =>
    intro s hf
    cases hq : s.queue.queue with
    | nil => rw [loop_empty h fuel s hq]; exact fun hc => Outcome.noConfusion hc
    | cons n rest =>
      unfold loopFuel at hf
      simp only [hq, List.length_cons] at hf
      cases hv : s.tracker.isVisited n with
      | true =>
        rw [loop_visited h fuel s n rest hq hv]
        apply ih
        show rest.length + unvisitedEdges h s.tracker + 1 ≤ fuel
        omega
      | false =>
        cases hd : deref h n with
        | none => rw [loop_nil h fuel s n rest hq hv hd]; exact fun hc => Outcome.noConfusion hc
        | some node =>
          rw [loop_fresh h fuel s n rest node hq hv hd]
          apply ih
          have hpot := unvisitedEdges_Visit h s.tracker n node hd hv
          unfold loopFuel
          simp only [enqueueEdges_queue, List.length_append]
          omega

theorem reach_mem_of_closed (h : Heap) (S : List Ptr) (e : Ptr) (he : e ∈ S)
    (hclosed : ∀ p ∈ S, ∀ q, Edge h p q → q ∈ S) : ∀ p, Reach h e p → p ∈ S := by
  intro p hp
  induction hp with
  | refl => exact he
  | tail _ hedge ih => exact hclosed _ ih _ hedge

theorem settled_init (h : Heap) : Settled h [] initShared :=
  { queue_empty := rfl
    nodes_nodup := List.nodup_nil
    nodes_iff := by intro p; simp [initShared, NewTracker, VisitedTracker.nodes, mapKeys]
    counts := by
      intro sym
      simp [initShared, NewTracker, NewCounter, VisitedTracker.nodes, mapKeys, tally, bump,
        Counter.get, mapGet]
    counter_nodup := by simp [initShared, NewCounter, mapKeys] }

theorem settled_step (h : Heap) (hwf : wellFormed h = true) (done : List Ptr) (s : Shared)
    (e : Ptr) (hs : Settled h done s) (he : validPtr h e = true) :
    ∃ s', CountLinks h s e = Outcome.done s' ∧ Settled h (done ++ [e]) s' ∧
      (∀ fuel, loopFuel h { s with queue := s.queue.Add e } ≤ fuel →
        CountLinksFuel h fuel s e = Outcome.done s') := by
  have hq0 : ({ s with queue := s.queue.Add e } : Shared).queue.queue = [e] := by
    simp [Queue.Add, hs.queue_empty]
  have hvalid : ∀ p ∈ ({ s with queue := s.queue.Add e } : Shared).queue.queue,
      validPtr h p = true := by
    intro p hp
    rw [hq0] at hp
    rw [List.mem_singleton.mp hp]
    exact he
  obtain ⟨s', new, hrun, hres⟩ :=
    loop_spec h hwf _ { s with queue := s.queue.Add e } hvalid (le_refl _)
  have hnodes : s'.tracker.nodes = s.tracker.nodes ++ new := hres.nodes_eq
  have hclosed : ∀ p ∈ s'.tracker.nodes, ∀ q, Edge h p q → q ∈ s'.tracker.nodes := by
    intro p hp q hedge
    rw [hnodes] at hp
    rcases List.mem_append.mp hp with hold | hnew
    · obtain ⟨e0, he0, hreach⟩ := (hs.nodes_iff p).mp hold
      rw [hnodes]
      exact List.mem_append_left _
        ((hs.nodes_iff q).mpr ⟨e0, he0, Relation.ReflTransGen.tail hreach hedge⟩)
    · exact hres.new_closed p hnew q hedge
  have he_mem : e ∈ s'.tracker.nodes := hres.queue_marked e (by rw [hq0]; simp)
  refine ⟨s', hrun, ?_, ?_⟩
  · exact
      { queue_empty := hres.queue_empty
        nodes_nodup := hres.nodes_nodup hs.nodes_nodup
        nodes_iff := by
          intro p
          constructor
          · intro hp
            rw [hnodes] at hp
            rcases List.mem_append.mp hp with hold | hnew
            · obtain ⟨e0, he0, hreach⟩ := (hs.nodes_iff p).mp hold
              exact ⟨e0, List.mem_append_left _ he0, hreach⟩
            · obtain ⟨r, hr, hreach⟩ := hres.new_reach p hnew
              rw [hq0] at hr
              rw [List.mem_singleton.mp hr] at hreach
              exact ⟨e, by simp, hreach⟩
          · rintro ⟨e0, he0, hreach⟩
            rcases List.mem_append.mp he0 with hold | hnew
            · rw [hnodes]
              exact List.mem_append_left _ ((hs.nodes_iff p).mpr ⟨e0, hold, hreach⟩)
            · rw [List.mem_singleton.mp hnew] at hreach
              exact reach_mem_of_closed h _ e he_mem hclosed p hreach
        counts := by
          intro sym
          rw [hres.counts sym]
          show bump (s.counter.get sym) (tally h sym new) = _
          rw [hs.counts sym, bump_bump, hnodes, tally_append]
        counter_nodup := hres.counter_nodup hs.counter_nodup }
  · intro fuel hf
    obtain ⟨k, hk⟩ := Nat.exists_eq_add_of_le hf
    unfold CountLinksFuel
    rw [hk]
    exact loop_fuel_mono h _ _ _ k hrun

theorem settled_run (h : Heap) (hwf : wellFormed h = true) :
    ∀ (es done : List Ptr) (s : Shared), Settled h done s →
      (∀ e ∈ es, validPtr h e = true) →
      ∃ s', runSequential h s es = Outcome.done s' ∧ Settled h (done ++ es) s' := by
  intro es
  induction es with
  | nil =>
    intro done s hs _
    exact ⟨s, rfl, by simpa using hs⟩
  | cons e es ih =>
    intro done s hs hvalid
    obtain ⟨s1, hrun1, hs1, _⟩ :=
      settled_step h hwf done s e hs (hvalid e (List.mem_cons_self _ _))
    obtain ⟨s', hrun, hs'⟩ := ih (done ++ [e]) s1 hs1
      (fun x hx => hvalid x (List.mem_cons_of_mem _ hx))
    refine ⟨s', ?_, by simpa using hs'⟩
    simp only [runSequential, hrun1]
    exact hrun

theorem settled_same_counts (h : Heap) (d1 d2 : List Ptr) (s1 s2 : Shared)
    (h1 : Settled h d1 s1) (h2 : Settled h d2 s2) (hd : ∀ e, e ∈ d1 ↔ e ∈ d2) :
    ∀ sym, s1.counter.get sym = s2.counter.get sym := by
  intro sym
  have hperm : s1.tracker.nodes.Perm s2.tracker.nodes := by
    apply (List.perm_ext_iff_of_nodup h1.nodes_nodup h2.nodes_nodup).mpr
    intro p
    rw [h1.nodes_iff, h2.nodes_iff]
    constructor
    · rintro ⟨e, he, hr⟩; exact ⟨e, (hd e).mp he, hr⟩
    · rintro ⟨e, he, hr⟩; exact ⟨e, (hd e).mpr he, hr⟩
  rw [h1.counts, h2.counts, tally_perm h sym hperm]

theorem bump_none (n : Nat) : bump none n = if n = 0 then none else some (n : Int) := by
  unfold bump
  split <;> simp

/-! ## Claims -/

/-- C1 (single counting). In a well-formed graph, `CountLinks` run by one worker from the
empty queue, tracker and counter ends normally; the nodes it marked are, without
repetition, exactly the nodes reachable from the entry node; and for every enumeration `R`
without repetition of the reachable nodes, the counter entry of each symbol is the sum over
`R` of the occurrences of the symbol in the node's links, with no entry for a symbol whose
sum is zero. -/
theorem countLinks_single_counting (h : Heap) (e : Ptr) (hwf : wellFormed h = true)
    (he : validPtr h e = true) :
    ∃ s', CountLinks h initShared e = Outcome.done s' ∧
      s'.tracker.nodes.Nodup ∧ (∀ p, p ∈ s'.tracker.nodes ↔ Reach h e p) ∧
      ∀ R : List Ptr, R.Nodup → (∀ p, p ∈ R ↔ Reach h e p) →
        ∀ sym, s'.counter.get sym =
          if tally h sym R = 0 then none else some (tally h sym R : Int) := by
  obtain ⟨s', hrun, hs', _⟩ := settled_step h hwf [] initShared e (settled_init h) he
  have hiff : ∀ p, p ∈ s'.tracker.nodes ↔ Reach h e p := by
    intro p
    rw [hs'.nodes_iff]
    simp
  refine ⟨s', hrun, hs'.nodes_nodup, hiff, ?_⟩
  intro R hR hmem sym
  have hperm : s'.tracker.nodes.Perm R := by
    apply (List.perm_ext_iff_of_nodup hs'.nodes_nodup hR).mpr
    intro p
    rw [hiff, hmem]
  rw [hs'.counts sym, tally_perm h sym hperm, bump_none]

/-- Witness of C1: the scenario graph of the specification, entry `one`, gives
A=2, B=3, C=1, D=1, E=1, F=2, H=2, G=1 and nothing else. -/
theorem countLinks_single_counting_witness :
    wellFormed specHeap = true ∧ validPtr specHeap (some 0) = true ∧
    (∃ s', CountLinks specHeap initShared (some 0) = Outcome.done s' ∧
      s'.tracker.nodes.Nodup ∧ (∀ p, p ∈ s'.tracker.nodes ↔ Reach specHeap (some 0) p) ∧
      ∀ R : List Ptr, R.Nodup → (∀ p, p ∈ R ↔ Reach specHeap (some 0) p) →
        ∀ sym, s'.counter.get sym =
          if tally specHeap sym R = 0 then none else some (tally specHeap sym R : Int)) ∧
    CountLinks specHeap initShared (some 0) = Outcome.done
      { counter := { counter := [("A", 2), ("B", 3), ("C", 1), ("D", 1), ("E", 1), ("F", 2),
          ("H", 2), ("G", 1)] },
        queue := { queue := [] },
        tracker := { visited := [(some 0, true), (some 1, true), (some 2, true),
          (some 3, true)] } } :=
  ⟨by decide, by decide, countLinks_single_counting specHeap (some 0) (by decide) (by decide),
    by decide⟩

/-- C2 (shared subgraph across entry points). In a well-formed graph, running `CountLinks`
to completion for `e1` and then for `e2` against the same, initially empty, queue, tracker
and counter ends normally; the marked nodes are, without repetition, exactly the nodes
reachable from `e1` or from `e2`; and the counter entry of each symbol is its tally over any
enumeration without repetition of that union, so a node reachable from both is counted
once. -/
theorem countLinks_shared_subgraph (h : Heap) (e1 e2 : Ptr) (hwf : wellFormed h = true)
    (he1 : validPtr h e1 = true) (he2 : validPtr h e2 = true) :
    ∃ s1 s2, CountLinks h initShared e1 = Outcome.done s1 ∧
      CountLinks h s1 e2 = Outcome.done s2 ∧
      s2.tracker.nodes.Nodup ∧
      (∀ p, p ∈ s2.tracker.nodes ↔ Reach h e1 p ∨ Reach h e2 p) ∧
      ∀ R : List Ptr, R.Nodup → (∀ p, p ∈ R ↔ Reach h e1 p ∨ Reach h e2 p) →
        ∀ sym, s2.counter.get sym =
          if tally h sym R = 0 then none else some (tally h sym R : Int) := by
  obtain ⟨s1, hrun1, hs1, _⟩ := settled_step h hwf [] initShared e1 (settled_init h) he1
  obtain ⟨s2, hrun2, hs2, _⟩ := settled_step h hwf _ s1 e2 hs1 he2
  have hiff : ∀ p, p ∈ s2.tracker.nodes ↔ Reach h e1 p ∨ Reach h e2 p := by
    intro p
    rw [hs2.nodes_iff]
    simp
  refine ⟨s1, s2, hrun1, hrun2, hs2.nodes_nodup, hiff, ?_⟩
  intro R hR hmem sym
  have hperm : s2.tracker.nodes.Perm R := by
    apply (List.perm_ext_iff_of_nodup hs2.nodes_nodup hR).mpr
    intro p
    rw [hiff, hmem]
  rw [hs2.counts sym, tally_perm h sym hperm, bump_none]

/-- Witness of C2: entry points `a` and `b` share the node `c`; the symbols `Z` and `W`
of `c` are counted once (`Z` occurs once in each of the three nodes). -/
theorem countLinks_shared_subgraph_witness :
    wellFormed sharedHeap = true ∧ validPtr sharedHeap (some 0) = true ∧
    validPtr sharedHeap (some 1) = true ∧
    (∃ s1 s2, CountLinks sharedHeap initShared (some 0) = Outcome.done s1 ∧
      CountLinks sharedHeap s1 (some 1) = Outcome.done s2 ∧
      s2.tracker.nodes.Nodup ∧
      (∀ p, p ∈ s2.tracker.nodes ↔ Reach sharedHeap (some 0) p ∨ Reach sharedHeap (some 1) p) ∧
      ∀ R : List Ptr, R.Nodup →
        (∀ p, p ∈ R ↔ Reach sharedHeap (some 0) p ∨ Reach sharedHeap (some 1) p) →
        ∀ sym, s2.counter.get sym =
          if tally sharedHeap sym R = 0 then none else some (tally sharedHeap sym R : Int)) ∧
    runSequential sharedHeap initShared [some 0, some 1] = Outcome.done
      { counter := { counter := [("X", 1), ("Z", 3), ("W", 1), ("Y", 1)] },
        queue := { queue := [] },
        tracker := { visited := [(some 0, true), (some 2, true), (some 1, true)] } } :=
  ⟨by decide, by decide, by decide,
    countLinks_shared_subgraph sharedHeap (some 0) (some 1) (by decide) (by decide) (by decide),
    by decide⟩

/-- C3 (cycle termination). In a well-formed graph, cyclic or not, a single-worker
`CountLinks` terminates from every queue content, tracker and counter: the loop condition is
evaluated at most `loopFuel` times (one pop per evaluation but the last), every larger
bound gives the same outcome, and the outcome is never that the bound was hit. When the
queue and the entry point hold pointers to nodes the run ends normally, with an empty
queue. -/
theorem countLinks_terminates (h : Heap) (s : Shared) (e : Ptr) (hwf : wellFormed h = true) :
    (∀ fuel, loopFuel h { s with queue := s.queue.Add e } ≤ fuel →
      CountLinksFuel h fuel s e = CountLinks h s e) ∧
    CountLinks h s e ≠ Outcome.outOfFuel ∧
    ((∀ p ∈ s.queue.queue, validPtr h p = true) → validPtr h e = true →
      ∃ s', CountLinks h s e = Outcome.done s' ∧ s'.queue.queue = []) := by
  have hno : CountLinks h s e ≠ Outcome.outOfFuel :=
    loop_no_timeout h _ { s with queue := s.queue.Add e } (le_refl _)
  refine ⟨?_, hno, ?_⟩
  · intro fuel hf
    obtain ⟨k, hk⟩ := Nat.exists_eq_add_of_le hf
    unfold CountLinks CountLinksFuel
    rw [hk]
    exact loop_fuel_stable h _ _ k hno
  · intro hq he
    have hvalid : ∀ p ∈ ({ s with queue := s.queue.Add e } : Shared).queue.queue,
        validPtr h p = true := by
      intro p hp
      simp only [Queue.Add, List.mem_append, List.mem_singleton] at hp
      rcases hp with hp | hp
      · exact hq p hp
      · exact hp ▸ he
    obtain ⟨s', new, hrun, hres⟩ :=
      loop_spec h hwf _ { s with queue := s.queue.Add e } hvalid (le_refl _)
    exact ⟨s', hrun, hres.queue_empty⟩

/-- Witness of C3: on the two-node cycle `A -> B -> A`, started at `A` from the empty state,
the run ends with `A` and `B` marked and the links `XY` of `A` and `YZ` of `B` counted once
each. -/
theorem countLinks_terminates_witness :
    wellFormed cycleHeap = true ∧
    ((∀ fuel, loopFuel cycleHeap { initShared with queue := initShared.queue.Add (some 0) } ≤ fuel →
      CountLinksFuel cycleHeap fuel initShared (some 0) = CountLinks cycleHeap initShared (some 0)) ∧
    CountLinks cycleHeap initShared (some 0) ≠ Outcome.outOfFuel ∧
    ((∀ p ∈ initShared.queue.queue, validPtr cycleHeap p = true) →
      validPtr cycleHeap (some 0) = true →
      ∃ s', CountLinks cycleHeap initShared (some 0) = Outcome.done s' ∧ s'.queue.queue = [])) ∧
    CountLinks cycleHeap initShared (some 0) = Outcome.done
      { counter := { counter := [("X", 1), ("Y", 2), ("Z", 1)] },
        queue := { queue := [] },
        tracker := { visited := [(some 0, true), (some 1, true)] } } :=
  ⟨by decide, countLinks_terminates cycleHeap initShared (some 0) (by decide), by decide⟩

/-- C6 (order invariance of the tally). In a well-formed graph, running one `CountLinks`
worker per entry point to completion, one after another from the empty queue, tracker and
counter, ends normally for every order of the entry points, and two orders that are
permutations of each other end with the same counter entry for every symbol. -/
theorem runSequential_perm (h : Heap) (es es' : List Ptr) (hwf : wellFormed h = true)
    (hvalid : ∀ e ∈ es, validPtr h e = true) (hperm : es.Perm es') :
    ∃ s s', runSequential h initShared es = Outcome.done s ∧
      runSequential h initShared es' = Outcome.done s' ∧
      ∀ sym, s.counter.get sym = s'.counter.get sym := by
  have hvalid' : ∀ e ∈ es', validPtr h e = true := fun e he => hvalid e (hperm.mem_iff.mpr he)
  obtain ⟨s, hrun, hs⟩ := settled_run h hwf es [] initShared (settled_init h) hvalid
  obtain ⟨s', hrun', hs'⟩ := settled_run h hwf es' [] initShared (settled_init h) hvalid'
  refine ⟨s, s', hrun, hrun', ?_⟩
  apply settled_same_counts h _ _ s s' hs hs'
  intro e
  simpa using hperm.mem_iff

/-- Witness of C6: the two orders of the entry points `a` and `b` of the shared graph. -/
theorem runSequential_perm_witness :
    wellFormed sharedHeap = true ∧
    (∀ e ∈ [some 0, some 1], validPtr sharedHeap e = true) ∧
    [some 0, some 1].Perm [some 1, some 0] ∧
    ∃ s s', runSequential sharedHeap initShared [some 0, some 1] = Outcome.done s ∧
      runSequential sharedHeap initShared [some 1, some 0] = Outcome.done s' ∧
      ∀ sym, s.counter.get sym = s'.counter.get sym :=
  ⟨by decide, by decide, List.Perm.swap _ _ _,
    runSequential_perm sharedHeap [some 0, some 1] [some 1, some 0] (by decide) (by decide)
      (List.Perm.swap _ _ _)⟩

/-! ### Workers interleaved -/

/-- On the literal iteration order `ConfigGraphDefault` builds `defaultHeap`, with entry
points `one` (cell 0) and `nine` (cell 8). -/
theorem configGraphDefault_literal_order :
    ConfigGraphDefault (mapKeys defaultConfig.NodeConfigs) =
      some (defaultHeap,
        { Nodes := [some 2, some 1, some 5, some 1, some 6, some 4, some 6, some 3,
            some 8, some 7, some 5, some 3, some 0, some 1, some 3, some 2, some 4, some 7,
            some 5, some 6, some 8],
          EntryPoints := [some 0, some 8],
          Created := [("one", some 0), ("two", some 1), ("four", some 2), ("three", some 3),
            ("five", some 4), ("seven", some 5), ("eight", some 6), ("six", some 7),
            ("nine", some 8)] }) := by
  decide

/-- A program with a single worker. -/
theorem stepProgram_solo (h : Heap) (pc : Pc) (s : Shared) (hpc : pc ≠ Pc.crashed) :
    stepProgram h { workers := [pc], shared := s } 0 =
      { workers := [(stepWorker h pc s).1], shared := (stepWorker h pc s).2 } := by
  have hc : ([pc].contains Pc.crashed) = false := by
    cases pc <;> first | rfl | exact absurd rfl hpc
  unfold stepProgram
  rw [hc]
  rfl

theorem runSchedule_append (h : Heap) (c : Program) (a b : List Nat) :
    runSchedule h c (a ++ b) = runSchedule h (runSchedule h c a) b := by
  simp [runSchedule, List.foldl_append]

theorem runSchedule_solo_links (h : Heap) (n : Ptr) (links : List String) :
    ∀ s : Shared, runSchedule h { workers := [Pc.links n links], shared := s }
        (List.replicate links.length 0) =
      { workers := [Pc.links n []],
        shared := { s with counter := countNodeLinks s.counter links } } := by
  induction links with
  | nil => intro s; rfl
  | cons l ls ih =>
    intro s
    have hstep : runSchedule h { workers := [Pc.links n (l :: ls)], shared := s }
        (List.replicate (l :: ls).length 0) =
        runSchedule h (stepProgram h { workers := [Pc.links n (l :: ls)], shared := s } 0)
          (List.replicate ls.length 0) := rfl
    rw [hstep, stepProgram_solo h _ _ (by simp)]
    simp only [stepWorker]
    rw [ih]
    rfl

theorem runSchedule_solo_edges (h : Heap) (edges : List Ptr) :
    ∀ s : Shared, runSchedule h { workers := [Pc.edges edges], shared := s }
        (List.replicate edges.length 0) =
      { workers := [Pc.edges []],
        shared := { s with queue := enqueueEdges s.queue edges } } := by
  induction edges with
  | nil => intro s; rfl
  | cons e es ih =>
    intro s
    have hstep : runSchedule h { workers := [Pc.edges (e :: es)], shared := s }
        (List.replicate (e :: es).length 0) =
        runSchedule h (stepProgram h { workers := [Pc.edges (e :: es)], shared := s } 0)
          (List.replicate es.length 0) := rfl
    rw [hstep, stepProgram_solo h _ _ (by simp)]
    simp only [stepWorker]
    rw [ih]
    rfl

theorem runSchedule_cons (h : Heap) (c : Program) (i : Nat) (rest : List Nat) :
    runSchedule h c (i :: rest) = runSchedule h (stepProgram h c i) rest := rfl

theorem runSchedule_one (h : Heap) (c : Program) :
    runSchedule h c (List.replicate 1 0) = stepProgram h c 0 := rfl

theorem runSchedule_three (h : Heap) (c : Program) :
    runSchedule h c (List.replicate 3 0) =
      stepProgram h (stepProgram h (stepProgram h c 0) 0) 0 := rfl

theorem runSchedule_four (h : Heap) (c : Program) :
    runSchedule h c (List.replicate 4 0) =
      stepProgram h (stepProgram h (stepProgram h (stepProgram h c 0) 0) 0) 0 := rfl

/-- A worker that runs alone goes through the loop of `CountLinks` as `countLinksLoop`
does: when the loop ends normally in `s'`, the worker, started at the loop condition,
returns after finitely many steps with the shared objects in state `s'`. -/
theorem solo_loop_agrees (h : Heap) (fuel : Nat) :
    ∀ s s' : Shared, countLinksLoop h fuel s = Outcome.done s' →
      ∃ k, runSchedule h { workers := [Pc.test], shared := s } (List.replicate k 0) =
        { workers := [Pc.finished], shared := s' } := by
  induction fuel with
  | zero => intro s s' hrun; simp [countLinksLoop] at hrun
  | succ fuel ih =>
    intro s s' hrun
    cases hq : s.queue.queue with
    | nil =>
      rw [loop_empty h fuel s hq] at hrun
      cases hrun
      refine ⟨1, ?_⟩
      rw [runSchedule_one, stepProgram_solo h _ _ (by simp)]
      simp [stepWorker, Queue.IsEmpty, hq]
    | cons n rest =>
      have h1 : stepProgram h { workers := [Pc.test], shared := s } 0 =
          { workers := [Pc.pop], shared := s } := by
        rw [stepProgram_solo h _ _ (by simp)]
        simp [stepWorker, Queue.IsEmpty, hq]
      have h2 : stepProgram h { workers := [Pc.pop], shared := s } 0 =
          { workers := [Pc.check n], shared := { s with queue := { queue := rest } } } := by
        rw [stepProgram_solo h _ _ (by simp)]
        simp [stepWorker, Queue.Pop, hq]
      cases hv : s.tracker.isVisited n with
      | true =>
        rw [loop_visited h fuel s n rest hq hv] at hrun
        obtain ⟨k, hk⟩ := ih _ _ hrun
        have h3 : stepProgram h
            { workers := [Pc.check n], shared := { s with queue := { queue := rest } } } 0 =
            { workers := [Pc.test], shared := { s with queue := { queue := rest } } } := by
          rw [stepProgram_solo h _ _ (by simp)]
          simp [stepWorker, VisitedTracker.IsVisited, hv]
        refine ⟨3 + k, ?_⟩
        rw [List.replicate_add, runSchedule_append, runSchedule_three, h1, h2, h3]
        exact hk
      | false =>
        cases hd : deref h n with
        | none =>
          rw [loop_nil h fuel s n rest hq hv hd] at hrun
          cases hrun
        | some node =>
          rw [loop_fresh h fuel s n rest node hq hv hd] at hrun
          obtain ⟨k, hk⟩ := ih _ _ hrun
          have h3 : stepProgram h
              { workers := [Pc.check n], shared := { s with queue := { queue := rest } } } 0 =
              { workers := [Pc.mark n], shared := { s with queue := { queue := rest } } } := by
            rw [stepProgram_solo h _ _ (by simp)]
            simp [stepWorker, VisitedTracker.IsVisited, hv]
          have h4 : stepProgram h
              { workers := [Pc.mark n], shared := { s with queue := { queue := rest } } } 0 =
              { workers := [Pc.links n node.GetLinks],
                shared :=
                  { counter := s.counter,
                    queue := { queue := rest },
                    tracker := s.tracker.Visit n } } := by
            rw [stepProgram_solo h _ _ (by simp)]
            simp [stepWorker, hd]
          have h5 : ∀ sh : Shared, stepProgram h { workers := [Pc.links n []], shared := sh } 0 =
              { workers := [Pc.edges node.edges], shared := sh } := by
            intro sh
            rw [stepProgram_solo h _ _ (by simp)]
            simp [stepWorker, hd]
          have h6 : ∀ sh : Shared, stepProgram h { workers := [Pc.edges []], shared := sh } 0 =
              { workers := [Pc.test], shared := sh } := by
            intro sh
            rw [stepProgram_solo h _ _ (by simp)]
            simp [stepWorker]
          refine ⟨4 + (node.GetLinks.length + (1 + (node.edges.length + (1 + k)))), ?_⟩
          rw [List.replicate_add, runSchedule_append]
          rw [runSchedule_four, h1, h2, h3, h4, List.replicate_add, runSchedule_append,
            runSchedule_solo_links, List.replicate_add, runSchedule_append, runSchedule_one, h5,
            List.replicate_add, runSchedule_append, runSchedule_solo_edges,
            List.replicate_add, runSchedule_append, runSchedule_one, h6]
          exact hk

/-- A single worker of the interleaved model computes what `CountLinks` computes: when
`CountLinks` ends normally in `s'`, the worker started on the same entry point returns
after finitely many steps and leaves the shared objects in state `s'`. -/
theorem solo_worker_agrees (h : Heap) (s s' : Shared) (e : Ptr)
    (hrun : CountLinks h s e = Outcome.done s') :
    ∃ k, runSchedule h { workers := [Pc.start e], shared := s } (List.replicate k 0) =
      { workers := [Pc.finished], shared := s' } := by
  obtain ⟨k, hk⟩ := solo_loop_agrees h _ _ _ hrun
  refine ⟨k + 1, ?_⟩
  rw [List.replicate_succ, runSchedule_cons, stepProgram_solo h _ _ (by simp)]
  exact hk

/-- C4 (atomic check-and-mark) fails on the code. On the default graph with the two workers
of `main`, there is an interleaving of the atomic calls after which both workers have popped
the node `three` (cell 3) and both have seen `!tracker.IsVisited(three)` hold, neither
having called `Visit(three)` yet; both go on to count its links, and when both have
returned the symbols `D`, `E`, `F` of `three` carry one count too many (`D` is 3 instead
of 2, `E` is 2 instead of 1, `F` is 3 instead of 2). -/
theorem check_then_mark_not_atomic :
    (runSchedule defaultHeap (mainProgram [some 0, some 8]) raceSchedule).workers =
      [Pc.mark (some 3), Pc.mark (some 3)] ∧
    (runSchedule defaultHeap (mainProgram [some 0, some 8])
      raceSchedule).shared.tracker.IsVisited (some 3) = false ∧
    (runSchedule defaultHeap (mainProgram [some 0, some 8])
      (raceSchedule ++ finishSchedule)).allFinished = true ∧
    (runSchedule defaultHeap (mainProgram [some 0, some 8])
      (raceSchedule ++ finishSchedule)).shared.counter.counter =
      [("A", 8), ("B", 7), ("C", 1), ("K", 2), ("V", 1), ("O", 1), ("S", 1), ("D", 3),
        ("E", 2), ("F", 3), ("H", 2), ("G", 1), ("J", 1)] := by
  decide

/-- C5 (determinism under scheduling) fails on the code. On the default graph with entry
points `one` and `nine`, two interleavings of the two workers of `main` both end with
every worker returned, and the final counters differ: `D` is 2 when worker 0 runs before
worker 1, and 3 on the racing schedule. -/
theorem final_counts_depend_on_schedule :
    (runSchedule defaultHeap (mainProgram [some 0, some 8]) sequentialSchedule).allFinished
      = true ∧
    (runSchedule defaultHeap (mainProgram [some 0, some 8])
      (raceSchedule ++ finishSchedule)).allFinished = true ∧
    (runSchedule defaultHeap (mainProgram [some 0, some 8])
      sequentialSchedule).shared.counter.get "D" = some 2 ∧
    (runSchedule defaultHeap (mainProgram [some 0, some 8])
      (raceSchedule ++ finishSchedule)).shared.counter.get "D" = some 3 := by
  decide

/-! ### Tracker -/

theorem stepWorker_tracker_mono (h : Heap) (pc : Pc) (s : Shared) (p : Ptr)
    (hp : s.tracker.isVisited p = true) : (stepWorker h pc s).2.tracker.isVisited p = true := by
  cases pc with
  | start e => simpa [stepWorker] using hp
  | test => simp only [stepWorker]; split <;> exact hp
  | pop => simp only [stepWorker]; split <;> exact hp
  | check n => simp only [stepWorker]; split <;> exact hp
  | mark n =>
    simp only [stepWorker]
    split <;> exact (isVisited_Visit _ _ _).mpr (Or.inr hp)
  | links n rest =>
    cases rest with
    | nil => simp only [stepWorker]; split <;> exact hp
    | cons l ls => simpa [stepWorker] using hp
  | edges rest =>
    cases rest with
    | nil => simpa [stepWorker] using hp
    | cons e es => simpa [stepWorker] using hp
  | finished => simpa [stepWorker] using hp
  | crashed => simpa [stepWorker] using hp

theorem stepProgram_tracker_mono (h : Heap) (c : Program) (i : Nat) (p : Ptr)
    (hp : c.shared.tracker.isVisited p = true) :
    (stepProgram h c i).shared.tracker.isVisited p = true := by
  unfold stepProgram
  split
  · exact hp
  · split
    · exact hp
    · exact stepWorker_tracker_mono h _ _ p hp

theorem runSchedule_tracker_mono (h : Heap) (schedule : List Nat) :
    ∀ (c : Program) (p : Ptr), c.shared.tracker.isVisited p = true →
      (runSchedule h c schedule).shared.tracker.isVisited p = true := by
  induction schedule with
  | nil => intro c p hp; exact hp
  | cons i rest ih =>
    intro c p hp
    exact ih (stepProgram h c i) p (stepProgram_tracker_mono h c i p hp)

theorem calls_tracker_mono (calls : List TrackerCall) :
    ∀ (t : VisitedTracker) (p : Ptr), t.isVisited p = true →
      (calls.foldl VisitedTracker.call t).isVisited p = true := by
  induction calls with
  | nil => intro t p hp; exact hp
  | cons c rest ih =>
    intro t p hp
    apply ih
    cases c with
    | IsVisited m => exact hp
    | Visit m => exact (isVisited_Visit _ _ _).mpr (Or.inr hp)

theorem loop_tracker_mono (h : Heap) (fuel : Nat) :
    ∀ (s s' : Shared) (p : Ptr), countLinksLoop h fuel s = Outcome.done s' →
      s.tracker.isVisited p = true → s'.tracker.isVisited p = true := by
  induction fuel with
  | zero => intro s s' p hrun; simp [countLinksLoop] at hrun
  | succ fuel ih =>
    intro s s' p hrun hp
    cases hq : s.queue.queue with
    | nil =>
      rw [loop_empty h fuel s hq] at hrun
      cases hrun
      exact hp
    | cons n rest =>
      cases hv : s.tracker.isVisited n with
      | true =>
        rw [loop_visited h fuel s n rest hq hv] at hrun
        exact ih _ _ p hrun hp
      | false =>
        cases hd : deref h n with
        | none =>
          rw [loop_nil h fuel s n rest hq hv hd] at hrun
          cases hrun
        | some node =>
          rw [loop_fresh h fuel s n rest node hq hv hd] at hrun
          exact ih _ _ p hrun ((isVisited_Visit _ _ _).mpr (Or.inr hp))

/-- C7 (visited is permanent). `IsVisited(n)` is true right after `Visit(n)` and stays true
after any further sequence of `Visit` and `IsVisited` calls and after any steps of any
number of interleaved `CountLinks` workers; more generally a node the tracker reports
visited is still reported visited after any such calls and steps and at the end of any
`CountLinks` run, so the visited set only grows; and an `IsVisited` call leaves the
tracker as it was. -/
theorem visited_is_permanent (h : Heap) (t : VisitedTracker) (n : Ptr) :
    (t.Visit n).IsVisited n = true ∧
    (∀ calls : List TrackerCall,
      (calls.foldl VisitedTracker.call (t.Visit n)).IsVisited n = true) ∧
    (∀ (workers : List Pc) (c : Counter) (q : Queue) (schedule : List Nat),
      (runSchedule h
        { workers := workers, shared := { counter := c, queue := q, tracker := t.Visit n } }
        schedule).shared.tracker.IsVisited n = true) ∧
    (∀ p, t.IsVisited p = true →
      (∀ calls : List TrackerCall, (calls.foldl VisitedTracker.call t).IsVisited p = true) ∧
      (∀ (workers : List Pc) (c : Counter) (q : Queue) (schedule : List Nat),
        (runSchedule h { workers := workers, shared := { counter := c, queue := q, tracker := t } }
          schedule).shared.tracker.IsVisited p = true) ∧
      (∀ (fuel : Nat) (c : Counter) (q : Queue) (e : Ptr) (s' : Shared),
        CountLinksFuel h fuel { counter := c, queue := q, tracker := t } e = Outcome.done s' →
        s'.tracker.IsVisited p = true)) ∧
    (∀ m, t.call (TrackerCall.IsVisited m) = t) ∧
    (∀ m p, (t.call (TrackerCall.Visit m)).IsVisited p = true ↔ p = m ∨ t.IsVisited p = true) := by
  have hn : (t.Visit n).isVisited n = true := (isVisited_Visit t n n).mpr (Or.inl rfl)
  refine ⟨hn, fun calls => calls_tracker_mono calls _ n hn, ?_, ?_, fun _ => rfl, ?_⟩
  · intro workers c q schedule
    exact runSchedule_tracker_mono h schedule _ n hn
  · intro p hp
    refine ⟨fun calls => calls_tracker_mono calls t p hp, ?_, ?_⟩
    · intro workers c q schedule
      exact runSchedule_tracker_mono h schedule _ p hp
    · intro fuel c q e s' hrun
      exact loop_tracker_mono h fuel _ s' p hrun hp
  · intro m p
    exact isVisited_Visit t m p

/-! ### Counter -/

/-- C8 (`AddCountForLink` increments exactly one entry by one). After
`AddCountForLink(s)` the entry of `s` is 1 when `s` had no entry and its previous count
plus 1 otherwise, and the entry of every other symbol, present or absent, is unchanged. -/
theorem addCountForLink_increments_one (c : Counter) (s : String) :
    (c.AddCountForLink s).get s =
      some (match c.get s with
        | none => 1
        | some v => v + 1) ∧
    ∀ s2, s2 ≠ s → (c.AddCountForLink s).get s2 = c.get s2 := by
  refine ⟨?_, fun s2 hne => get_AddCountForLink_other c s s2 hne⟩
  rw [get_AddCountForLink_same]
  cases c.get s <;> simp

theorem mem_keys_countNodeLinks (c : Counter) (links : List String) (s : String) :
    s ∈ mapKeys (countNodeLinks c links).counter ↔ s ∈ links ∨ s ∈ mapKeys c.counter := by
  induction links generalizing c with
  | nil => simp [countNodeLinks]
  | cons l ls ih =>
    have hstep : countNodeLinks c (l :: ls) = countNodeLinks (c.AddCountForLink l) ls := by
      simp [countNodeLinks]
    rw [hstep, ih, mem_keys_AddCountForLink]
    simp only [List.mem_cons]
    tauto

theorem getCounts_fst (c : Counter) (order : List String) :
    (c.GetCounts order).1 = order.map (fun k => formatCount k ((mapGet c.counter k).getD 0)) := by
  unfold Counter.GetCounts
  suffices hgen : ∀ acc : List String,
      order.foldl (fun arr k => arr ++ [formatCount k ((mapGet c.counter k).getD 0)]) acc =
        acc ++ order.map (fun k => formatCount k ((mapGet c.counter k).getD 0)) by
    simpa using hgen []
  induction order with
  | nil => intro acc; simp
  | cons k ks ih => intro acc; simp [ih]

/-- C9 (`GetCounts` reports exactly the symbols counted with their totals). For the
counter reached from `NewCounter()` by the calls `AddCountForLink(s)` for `s` in `calls`,
and any order `order` in which the map is ranged over, `order` lists each counted symbol
once and no other symbol, `GetCounts` returns, in that order, the text
`<symbol>:<count>` with the number of calls made for the symbol, and the counter is
unchanged. -/
theorem getCounts_reports_counts (calls order : List String)
    (horder : order.Perm (mapKeys (calls.foldl Counter.AddCountForLink NewCounter).counter)) :
    order.Nodup ∧ (∀ sym, sym ∈ order ↔ sym ∈ calls) ∧
    ((calls.foldl Counter.AddCountForLink NewCounter).GetCounts order).1 =
      order.map (fun sym => sym ++ ":" ++ toString (calls.count sym : Int)) ∧
    ((calls.foldl Counter.AddCountForLink NewCounter).GetCounts order).2 =
      calls.foldl Counter.AddCountForLink NewCounter := by
  have hfold : calls.foldl Counter.AddCountForLink NewCounter = countNodeLinks NewCounter calls :=
    rfl
  rw [hfold] at horder ⊢
  have hnd : (mapKeys (countNodeLinks NewCounter calls).counter).Nodup :=
    nodup_keys_countNodeLinks _ _ (by simp [NewCounter, mapKeys])
  have hmem : ∀ sym, sym ∈ order ↔ sym ∈ calls := by
    intro sym
    rw [horder.mem_iff, mem_keys_countNodeLinks]
    simp [NewCounter, mapKeys]
  refine ⟨horder.nodup_iff.mpr hnd, hmem, ?_, rfl⟩
  rw [getCounts_fst]
  apply List.map_congr_left
  intro sym hsym
  have hcount : calls.count sym ≠ 0 := by
    have := (hmem sym).mp hsym
    exact fun h0 => (List.count_eq_zero.mp h0) this
  have hget := get_countNodeLinks NewCounter calls sym
  unfold Counter.get at hget
  rw [hget]
  simp [hcount, formatCount, NewCounter, mapGet]

/-- Witness of C9: after counting `A`, `B`, `A`, with the map ranged over as `B`, `A`,
`GetCounts` returns `B:1`, `A:2`. -/
theorem getCounts_reports_counts_witness :
    ["B", "A"].Perm (mapKeys (["A", "B", "A"].foldl Counter.AddCountForLink NewCounter).counter) ∧
    ((["A", "B", "A"].foldl Counter.AddCountForLink NewCounter).GetCounts ["B", "A"]).1 =
      ["B:1", "A:2"] ∧
    (["B", "A"].Nodup ∧ (∀ sym, sym ∈ ["B", "A"] ↔ sym ∈ ["A", "B", "A"]) ∧
    ((["A", "B", "A"].foldl Counter.AddCountForLink NewCounter).GetCounts ["B", "A"]).1 =
      ["B", "A"].map (fun sym => sym ++ ":" ++ toString ((["A", "B", "A"].count sym : Nat) : Int)) ∧
    ((["A", "B", "A"].foldl Counter.AddCountForLink NewCounter).GetCounts ["B", "A"]).2 =
      ["A", "B", "A"].foldl Counter.AddCountForLink NewCounter) :=
  ⟨by decide, by decide, getCounts_reports_counts ["A", "B", "A"] ["B", "A"] (by decide)⟩

/-! ### Queue -/

theorem popN_append (xs : List Ptr) : ∀ (q : Queue) (ys : List Ptr), q.queue = xs ++ ys →
    Queue.popN xs.length q = some (xs, { queue := ys }) := by
  induction xs with
  | nil =>
    intro q ys hq
    cases q
    simp only [List.nil_append] at hq
    simp [Queue.popN, hq]
  | cons x rest ih =>
    intro q ys hq
    have hpop : q.Pop = some (x, { queue := rest ++ ys }) := by
      simp [Queue.Pop, hq]
    simp [Queue.popN, hpop, ih { queue := rest ++ ys } ys rfl]

theorem foldl_Add_queue (xs : List Ptr) (q : Queue) :
    (xs.foldl Queue.Add q).queue = q.queue ++ xs :=
  enqueueEdges_queue q xs

/-- C10 (the queue is FIFO). `Add(n)` appends `n` at the tail and keeps the elements
before it; `Pop` on a non-empty queue returns the head, the earliest element added that
is still in the queue, and removes only it; adding `x1..xk` to an empty queue and popping
`k` times returns `x1..xk` in that order and leaves the queue empty; and `IsEmpty` holds
exactly when the queue has no element. -/
theorem queue_is_fifo :
    (∀ (q : Queue) (n : Ptr), (q.Add n).queue = q.queue ++ [n]) ∧
    (∀ (q : Queue) (x : Ptr) (rest : List Ptr), q.queue = x :: rest →
      q.Pop = some (x, { queue := rest })) ∧
    (∀ (q : Queue) (xs : List Ptr),
      Queue.popN (q.queue.length + xs.length) (xs.foldl Queue.Add q) =
        some (q.queue ++ xs, NewQueue)) ∧
    (∀ xs : List Ptr, Queue.popN xs.length (xs.foldl Queue.Add NewQueue) = some (xs, NewQueue)) ∧
    (∀ q : Queue, q.IsEmpty = true ↔ q.queue = []) := by
  refine ⟨fun _ _ => rfl, ?_, ?_, ?_, ?_⟩
  · intro q x rest hq
    simp [Queue.Pop, hq]
  · intro q xs
    have := popN_append (q.queue ++ xs) (xs.foldl Queue.Add q) [] (by simp [foldl_Add_queue])
    simpa [NewQueue] using this
  · intro xs
    have := popN_append xs (xs.foldl Queue.Add NewQueue) [] (by simp [foldl_Add_queue, NewQueue])
    simpa [NewQueue] using this
  · intro q
    cases hq : q.queue with
    | nil => simp [Queue.IsEmpty, hq]
    | cons x rest => simp [Queue.IsEmpty, hq]

/-- C11 (`Pop` on an empty queue fails fast). On a queue without elements the indexing
`q.queue[0]` panics: `Pop` returns neither a node nor a nil value, and a worker that makes
the call crashes with the shared objects, the queue among them, left as they were, so the
queue is still empty. -/
theorem pop_empty_panics (q : Queue) (hq : q.queue = []) :
    q.Pop = none ∧
    ∀ (h : Heap) (s : Shared), s.queue = q →
      stepWorker h Pc.pop s = (Pc.crashed, s) ∧ (stepWorker h Pc.pop s).2.queue.queue = [] := by
  have hpop : q.Pop = none := by simp [Queue.Pop, hq]
  refine ⟨hpop, ?_⟩
  intro h s hs
  subst hs
  simp [stepWorker, hpop, hq]

/-- Witness of C11: `Pop` on the queue `NewQueue()` panics. -/
theorem pop_empty_panics_witness :
    NewQueue.queue = [] ∧
    (NewQueue.Pop = none ∧
    ∀ (h : Heap) (s : Shared), s.queue = NewQueue →
      stepWorker h Pc.pop s = (Pc.crashed, s) ∧ (stepWorker h Pc.pop s).2.queue.queue = []) :=
  ⟨rfl, pop_empty_panics NewQueue rfl⟩

/-! ### The guard of the loop -/

theorem popGuarded_step (h : Heap) (c : Program) (i : Nat) (hc : PopGuarded c) :
    PopGuarded (stepProgram h c i) := by
  obtain ⟨pc, hw, hg⟩ := hc
  unfold stepProgram
  split
  · exact ⟨pc, hw, hg⟩
  · cases i with
    | succ j => simp only [hw, List.getElem?_cons_succ, List.getElem?_nil]; exact ⟨pc, hw, hg⟩
    | zero =>
      simp only [hw, List.getElem?_cons_zero, List.set_cons_zero]
      refine ⟨_, rfl, ?_⟩
      intro hpop
      cases pc with
      | start e => simp [stepWorker] at hpop
      | test =>
        cases hemp : c.shared.queue.IsEmpty with
        | true => simp [stepWorker, hemp] at hpop
        | false => simp [stepWorker, hemp]
      | pop =>
        simp only [stepWorker] at hpop
        split at hpop <;> simp at hpop
      | check n =>
        simp only [stepWorker] at hpop
        split at hpop <;> simp at hpop
      | mark n =>
        simp only [stepWorker] at hpop
        split at hpop <;> simp at hpop
      | links n rest =>
        cases rest with
        | nil =>
          simp only [stepWorker] at hpop
          split at hpop <;> simp at hpop
        | cons l ls => simp [stepWorker] at hpop
      | edges rest =>
        cases rest with
        | nil => simp [stepWorker] at hpop
        | cons e es => simp [stepWorker] at hpop
      | finished => simp [stepWorker] at hpop
      | crashed => simp [stepWorker] at hpop

theorem popGuarded_run (h : Heap) (schedule : List Nat) :
    ∀ c : Program, PopGuarded c → PopGuarded (runSchedule h c schedule) := by
  induction schedule with
  | nil => intro c hc; exact hc
  | cons i rest ih => intro c hc; exact ih _ (popGuarded_step h c i hc)

theorem pop_of_not_empty (q : Queue) (hq : q.IsEmpty = false) :
    ∃ n q', q.Pop = some (n, q') := by
  cases hl : q.queue with
  | nil => simp [Queue.IsEmpty, hl] at hq
  | cons x rest => exact ⟨x, { queue := rest }, by simp [Queue.Pop, hl]⟩

/-- C12 (the coordinator never pops an empty queue). In a run of a single `CountLinks`
worker, on any graph and from any queue, tracker and counter, whenever the worker is about
to call `Pop` the queue is not empty and the call returns an element: the step that
follows is never the panic of `Pop`. In the loop of `CountLinks` the same holds: once
`IsEmpty` has returned false, `Pop` returns an element. -/
theorem pop_never_on_empty (h : Heap) (s : Shared) (e : Ptr) (schedule : List Nat) :
    ((runSchedule h { workers := [Pc.start e], shared := s } schedule).workers = [Pc.pop] →
      (runSchedule h { workers := [Pc.start e], shared := s } schedule).shared.queue.IsEmpty
        = false ∧
      (∃ n q, (runSchedule h { workers := [Pc.start e], shared := s }
        schedule).shared.queue.Pop = some (n, q)) ∧
      (runSchedule h { workers := [Pc.start e], shared := s } (schedule ++ [0])).workers
        ≠ [Pc.crashed]) ∧
    (∀ s1 : Shared, s1.queue.IsEmpty = false → ∃ n q, s1.queue.Pop = some (n, q)) := by
  refine ⟨?_, fun s1 h1 => pop_of_not_empty _ h1⟩
  intro hw
  have hinit : PopGuarded { workers := [Pc.start e], shared := s } :=
    ⟨Pc.start e, rfl, fun hh => Pc.noConfusion hh⟩
  obtain ⟨pc, hpc, hg⟩ := popGuarded_run h schedule _ hinit
  rw [hw] at hpc
  have hpop : pc = Pc.pop := by
    simp only [List.cons.injEq, and_true] at hpc
    exact hpc.symm
  have hne := hg hpop
  obtain ⟨n, q, hnq⟩ := pop_of_not_empty _ hne
  refine ⟨hne, ⟨n, q, hnq⟩, ?_⟩
  rw [runSchedule_append]
  generalize runSchedule h { workers := [Pc.start e], shared := s } schedule = c at hw hnq
  have hstep : runSchedule h c [0] = stepProgram h c 0 := rfl
  rw [hstep]
  cases c with
  | mk workers shared =>
    simp only at hw hnq
    subst hw
    rw [stepProgram_solo h _ _ (by simp)]
    simp [stepWorker, hnq]

/-- C17 (a visited node is never reprocessed). Started with an empty queue on an entry node
the tracker already marks, `CountLinks` ends normally with the counter, the tracker and the
queue exactly as they were; and in a well-formed graph a second run of `CountLinks` from the
same entry point, on the objects the first run left, ends in the state the first run
ended in. -/
theorem countLinks_visited_entry (h : Heap) (s : Shared) (e : Ptr) (hq : s.queue.queue = []) :
    (s.tracker.IsVisited e = true → CountLinks h s e = Outcome.done s) ∧
    (wellFormed h = true → validPtr h e = true →
      ∃ s', CountLinks h s e = Outcome.done s' ∧ CountLinks h s' e = Outcome.done s') := by
  have hfirst : ∀ s0 : Shared, s0.queue.queue = [] → s0.tracker.IsVisited e = true →
      CountLinks h s0 e = Outcome.done s0 := by
    intro s0 hq0 hv
    have hadd : ({ s0 with queue := s0.queue.Add e } : Shared).queue.queue = [e] := by
      simp [Queue.Add, hq0]
    have hfuel : loopFuel h { s0 with queue := s0.queue.Add e } =
        (unvisitedEdges h s0.tracker + 1) + 1 := by
      unfold loopFuel
      rw [hadd]
      simp only [List.length_singleton]
      omega
    unfold CountLinks CountLinksFuel
    rw [hfuel, loop_visited h _ _ e [] hadd hv, loop_empty h _ _ rfl]
    cases s0 with
    | mk c q t =>
      cases q with
      | mk l =>
        simp only at hq0
        subst hq0
        rfl
  refine ⟨hfirst s hq, ?_⟩
  intro hwf he
  have hq0 : ({ s with queue := s.queue.Add e } : Shared).queue.queue = [e] := by
    simp [Queue.Add, hq]
  have hvalid : ∀ p ∈ ({ s with queue := s.queue.Add e } : Shared).queue.queue,
      validPtr h p = true := by
    intro p hp
    rw [hq0] at hp
    rw [List.mem_singleton.mp hp]
    exact he
  obtain ⟨s', new, hrun, hres⟩ :=
    loop_spec h hwf _ { s with queue := s.queue.Add e } hvalid (le_refl _)
  refine ⟨s', hrun, hfirst s' hres.queue_empty ?_⟩
  exact (isVisited_iff _ _).mpr (hres.queue_marked e (by rw [hq0]; simp))

/-- Witness of C17: on the scenario graph, a run from `one` with `one` already marked
changes nothing, and a second run from `one` after a first one changes nothing. -/
theorem countLinks_visited_entry_witness :
    ({ initShared with tracker := NewTracker.Visit (some 0) } : Shared).queue.queue = [] ∧
    CountLinks specHeap { initShared with tracker := NewTracker.Visit (some 0) } (some 0) =
      Outcome.done { initShared with tracker := NewTracker.Visit (some 0) } ∧
    runSequential specHeap initShared [some 0, some 0] =
      runSequential specHeap initShared [some 0] ∧
    ((({ initShared with tracker := NewTracker.Visit (some 0) } : Shared).tracker.IsVisited
        (some 0) = true →
      CountLinks specHeap { initShared with tracker := NewTracker.Visit (some 0) } (some 0) =
        Outcome.done { initShared with tracker := NewTracker.Visit (some 0) }) ∧
    (wellFormed specHeap = true → validPtr specHeap (some 0) = true →
      ∃ s', CountLinks specHeap { initShared with tracker := NewTracker.Visit (some 0) }
          (some 0) = Outcome.done s' ∧
        CountLinks specHeap s' (some 0) = Outcome.done s')) :=
  ⟨rfl, by decide, by decide,
    countLinks_visited_entry specHeap { initShared with tracker := NewTracker.Visit (some 0) }
      (some 0) rfl⟩

/-- C18 (`GetLinks` splits `links` into single-character symbols, in order). The result
has one element per character of `links`; the element at each position is the string made
of the character at that position; concatenating the result gives back `links`; and for
empty `links` the result is empty. -/
theorem getLinks_splits_characters (n : Node) :
    n.GetLinks.length = n.links.length ∧
    (∀ (i : Nat) (c : Char), n.links.toList[i]? = some c →
      n.GetLinks[i]? = some (String.singleton c)) ∧
    (∀ x ∈ n.GetLinks, x.length = 1) ∧
    String.join n.GetLinks = n.links ∧
    (n.links = "" → n.GetLinks = []) := by
  refine ⟨?_, ?_, ?_, ?_, ?_⟩
  · simp only [Node.GetLinks, List.length_map]
    rfl
  · intro i c hc
    simp only [Node.GetLinks, List.getElem?_map, hc, Option.map_some']
  · intro x hx
    simp only [Node.GetLinks, List.mem_map] at hx
    obtain ⟨c, _, rfl⟩ := hx
    rfl
  · apply String.ext
    rw [String.data_join]
    simp only [Node.GetLinks, List.map_map]
    have hgen : ∀ l : List Char, (l.map (String.data ∘ String.singleton)).flatten = l := by
      intro l
      induction l with
      | nil => rfl
      | cons c cs ih => simp [ih]
    exact hgen _
  · intro hl
    simp [Node.GetLinks, hl]

/-! ## Lemmas on the construction -/

theorem createNode_zero (config : GraphConfig) (name : String) (st : Heap × Graph) :
    CreateNodeFromConfig config 0 name st = none := rfl

theorem createNode_existing (config : GraphConfig) (fuel : Nat) (name : String) (h : Heap)
    (g : Graph) (hex : (mapGet g.Created name).isSome = true) :
    CreateNodeFromConfig config (fuel + 1) name (h, g) =
      some (resolve g.Created name,
        (h, { g with Nodes := g.Nodes ++ [resolve g.Created name] })) := by
  simp [CreateNodeFromConfig, hex, resolve]

theorem createNode_fresh (config : GraphConfig) (fuel : Nat) (name : String) (h : Heap)
    (g : Graph) (hex : (mapGet g.Created name).isSome = false) :
    CreateNodeFromConfig config (fuel + 1) name (h, g) =
      match (config.lookup name).edges.foldl (edgeStep config fuel (some h.length))
          (some (h ++ [NewNode name (config.lookup name).links []],
            { g with Created := mapSet g.Created (config.lookup name).name (some h.length) })) with
      | none => none
      | some (h', g') =>
        some (resolve g'.Created name,
          (h', { g' with Nodes := g'.Nodes ++ [resolve g'.Created name] })) := by
  have hgen : CreateNodeFromConfig config (fuel + 1) name (h, g) =
      match (if (mapGet g.Created name).isSome then some (h, g)
        else (config.lookup name).edges.foldl (edgeStep config fuel (some h.length))
          (some (h ++ [NewNode name (config.lookup name).links []],
            { g with Created := mapSet g.Created (config.lookup name).name (some h.length) }))) with
      | none => none
      | some (h', g') =>
        some (resolve g'.Created name,
          (h', { g' with Nodes := g'.Nodes ++ [resolve g'.Created name] })) := rfl
  rw [hgen, hex]
  rfl

theorem edgeStep_none (config : GraphConfig) (fuel : Nat) (n : Ptr) (edges : List String) :
    edges.foldl (edgeStep config fuel n) none = none := by
  induction edges with
  | nil => rfl
  | cons e es ih => simpa [List.foldl, edgeStep] using ih

theorem nodeStep_none (config : GraphConfig) (fuel : Nat) (keys : List String) :
    keys.foldl (nodeStep config fuel) none = none := by
  induction keys with
  | nil => rfl
  | cons e es ih => simpa [List.foldl, nodeStep] using ih

theorem configGraph_eq (config : GraphConfig) (order : List String) (fuel : Nat) :
    ConfigGraph config order fuel =
      (order.foldl (nodeStep config fuel)
        (some ([], { Nodes := [], EntryPoints := [], Created := [] }))).map (fun st =>
          (st.1, config.EntryPoints.foldl (fun (acc : Graph) name =>
            { acc with EntryPoints := acc.EntryPoints ++ [resolve acc.Created name] }) st.2)) := by
  rfl

theorem mapSet_absent {κ ν : Type} [DecidableEq κ] (m : List (κ × ν)) (k : κ) (v : ν)
    (hk : k ∉ mapKeys m) : mapSet m k v = m ++ [(k, v)] := by
  induction m with
  | nil => rfl
  | cons p rest ih =>
    obtain ⟨k', v'⟩ := p
    simp only [mapKeys, List.map_cons, List.mem_cons, not_or] at hk
    have hk' : ¬ k' = k := fun h => hk.1 h.symm
    have := ih hk.2
    simp [mapSet, hk', this]

theorem mapGet_append_left {κ ν : Type} [DecidableEq κ] (a b : List (κ × ν)) (k : κ)
    (hk : k ∈ mapKeys a) : mapGet (a ++ b) k = mapGet a k := by
  induction a with
  | nil => simp [mapKeys] at hk
  | cons p rest ih =>
    obtain ⟨k', v'⟩ := p
    by_cases hk' : k' = k
    · simp [mapGet, hk']
    · have hmem : k ∈ mapKeys rest := by
        simp only [mapKeys, List.map_cons, List.mem_cons] at hk
        rcases hk with h | h
        · exact absurd h.symm hk'
        · exact h
      simp [mapGet, hk', ih hmem]

theorem mapGet_of_mem_nodup {κ ν : Type} [DecidableEq κ] (m : List (κ × ν)) (k : κ) (v : ν)
    (hnd : (mapKeys m).Nodup) (hmem : (k, v) ∈ m) : mapGet m k = some v := by
  induction m with
  | nil => cases hmem
  | cons p rest ih =>
    obtain ⟨k', v'⟩ := p
    simp only [mapKeys, List.map_cons, List.nodup_cons] at hnd
    rcases List.mem_cons.mp hmem with heq | hrest
    · cases heq
      simp [mapGet]
    · have hne : ¬ k' = k := by
        intro hh
        apply hnd.1
        rw [hh]
        exact List.mem_map.mpr ⟨(k, v), hrest, rfl⟩
      simp only [mapGet, hne, if_false]
      exact ih hnd.2 hrest

theorem resolve_append_left (a b : List (String × Ptr)) (k : String) (hk : k ∈ mapKeys a) :
    resolve (a ++ b) k = resolve a k := by
  unfold resolve
  rw [mapGet_append_left a b k hk]

theorem mapKeys_indexNames (names : List String) : ∀ i, mapKeys (indexNames i names) = names := by
  induction names with
  | nil => intro i; rfl
  | cons n rest ih =>
    intro i
    simp only [indexNames, mapKeys, List.map_cons, List.cons.injEq, true_and]
    exact ih (i + 1)

theorem indexNames_append (a b : List String) :
    ∀ i, indexNames i (a ++ b) = indexNames i a ++ indexNames (i + a.length) b := by
  induction a with
  | nil => intro i; simp [indexNames]
  | cons n rest ih =>
    intro i
    show (n, some i) :: indexNames (i + 1) (rest ++ b) =
      (n, some i) :: (indexNames (i + 1) rest ++ indexNames (i + (rest.length + 1)) b)
    have hidx : i + 1 + rest.length = i + (rest.length + 1) := by omega
    rw [ih (i + 1), hidx]

theorem mapGet_indexNames (names : List String) (hnd : names.Nodup) :
    ∀ (i j : Nat) (name : String), names[j]? = some name →
      mapGet (indexNames i names) name = some (some (i + j)) := by
  induction names with
  | nil => intro i j name hj; simp at hj
  | cons n rest ih =>
    intro i j name hj
    have hnd' := List.nodup_cons.mp hnd
    cases j with
    | zero =>
      simp only [List.getElem?_cons_zero, Option.some.injEq] at hj
      simp [indexNames, mapGet, hj]
    | succ j =>
      simp only [List.getElem?_cons_succ] at hj
      have hmem : name ∈ rest := List.getElem?_mem hj
      have hne : ¬ n = name := fun hh => hnd'.1 (hh ▸ hmem)
      simp only [indexNames, mapGet, hne, if_false]
      rw [ih hnd'.2 (i + 1) j name hj]
      have hidx : i + 1 + j = i + (j + 1) := by omega
      rw [hidx]

theorem resolve_indexNames_valid (h : Heap) (name : String) (hnd : (heapNames h).Nodup)
    (hmem : name ∈ heapNames h) :
    ∃ j node, resolve (indexNames 0 (heapNames h)) name = some j ∧ h[j]? = some node ∧
      node.name = name := by
  obtain ⟨j, hj⟩ := List.mem_iff_getElem?.mp hmem
  have hget := mapGet_indexNames (heapNames h) hnd 0 j name hj
  simp only [heapNames, List.getElem?_map, Option.map_eq_some'] at hj
  obtain ⟨node, hnode, hname⟩ := hj
  refine ⟨j, node, ?_, hnode, hname⟩
  simp [resolve, hget]

theorem validPtr_iff (h : Heap) (p : Ptr) :
    validPtr h p = true ↔ ∃ i, p = some i ∧ i < h.length := by
  cases p with
  | none => simp [validPtr, deref]
  | some i =>
    simp only [validPtr, deref, Option.some.injEq, exists_eq_left']
    constructor
    · intro hs
      by_contra hge
      rw [List.getElem?_eq_none (by omega)] at hs
      cases hs
    · intro hlt
      rw [List.getElem?_eq_getElem hlt]
      rfl

theorem validPtr_of_length_le (h h' : Heap) (p : Ptr) (hle : h.length ≤ h'.length)
    (hp : validPtr h p = true) : validPtr h' p = true := by
  rw [validPtr_iff] at hp ⊢
  obtain ⟨i, hi, hlt⟩ := hp
  exact ⟨i, hi, by omega⟩

theorem heapAddEdge_mid (h rest : Heap) (c : Node) (p : Ptr) :
    heapAddEdge (h ++ c :: rest) (some h.length) p = h ++ c.AddEdge p :: rest := by
  have hget : (h ++ c :: rest)[h.length]? = some c := by
    rw [List.getElem?_append_right (le_refl _)]
    simp
  simp only [heapAddEdge, hget]
  rw [List.set_append_right _ _ (le_refl _)]
  simp

theorem filter_length_le_of_imp {α : Type} (l : List α) (p q : α → Bool)
    (hpq : ∀ a, p a = true → q a = true) : (l.filter p).length ≤ (l.filter q).length := by
  induction l with
  | nil => simp
  | cons a rest ih =>
    by_cases hp : p a = true
    · simp [List.filter, hp, hpq a hp, ih]
    · by_cases hq : q a = true
      · simp [List.filter, hp, hq]; omega
      · simp [List.filter, hp, hq, ih]

theorem filter_length_lt_of_imp {α : Type} (l : List α) (p q : α → Bool) (x : α)
    (hpq : ∀ a, p a = true → q a = true) (hx : x ∈ l) (hqx : q x = true) (hpx : ¬ p x = true) :
    (l.filter p).length < (l.filter q).length := by
  induction l with
  | nil => cases hx
  | cons a rest ih =>
    rcases List.mem_cons.mp hx with hax | hrest
    · subst hax
      have hle := filter_length_le_of_imp rest p q hpq
      simp [List.filter, hpx, hqx]
      omega
    · have hlt := ih hrest
      by_cases hp : p a = true
      · simp [List.filter, hp, hpq a hp, hlt]
      · by_cases hq : q a = true
        · simp [List.filter, hp, hq]; omega
        · simp [List.filter, hp, hq, hlt]

theorem missingNodes_le (config : GraphConfig) (h h' : Heap)
    (hsub : ∀ name ∈ heapNames h, name ∈ heapNames h') :
    missingNodes config h' ≤ missingNodes config h := by
  unfold missingNodes
  apply filter_length_le_of_imp
  intro a ha
  simp only [Bool.not_eq_true', List.contains_eq_any_beq, List.any_eq_false, beq_iff_eq] at ha ⊢
  intro x hx
  exact ha x (hsub x hx)

theorem missingNodes_lt (config : GraphConfig) (h h' : Heap) (name : String)
    (hsub : ∀ n ∈ heapNames h, n ∈ heapNames h') (hkey : name ∈ mapKeys config.NodeConfigs)
    (hnew : name ∉ heapNames h) (hin : name ∈ heapNames h') :
    missingNodes config h' < missingNodes config h := by
  unfold missingNodes
  apply filter_length_lt_of_imp _ _ _ name _ hkey
  · simpa using hnew
  · simpa using hin
  · intro a ha
    simp only [Bool.not_eq_true', List.contains_eq_any_beq, List.any_eq_false, beq_iff_eq] at ha ⊢
    intro x hx
    exact ha x (hsub x hx)

theorem config_keys_nodup (config : GraphConfig) (hwf : config.wellFormed = true) :
    (mapKeys config.NodeConfigs).Nodup := by
  unfold GraphConfig.wellFormed at hwf
  simp only [Bool.and_eq_true, decide_eq_true_eq] at hwf
  exact hwf.1

theorem config_lookup_of_mem (config : GraphConfig) (hwf : config.wellFormed = true)
    (kc : String × NodeConfig) (hmem : kc ∈ config.NodeConfigs) :
    config.lookup kc.1 = kc.2 := by
  unfold GraphConfig.lookup
  rw [mapGet_of_mem_nodup config.NodeConfigs kc.1 kc.2 (config_keys_nodup config hwf) hmem]
  rfl

theorem config_entry (config : GraphConfig) (hwf : config.wellFormed = true) (name : String)
    (hkey : name ∈ mapKeys config.NodeConfigs) :
    (name, config.lookup name) ∈ config.NodeConfigs ∧ (config.lookup name).name = name ∧
      ∀ e ∈ (config.lookup name).edges, e ∈ mapKeys config.NodeConfigs := by
  obtain ⟨kc, hmem, hk⟩ := List.mem_map.mp hkey
  have hlook := config_lookup_of_mem config hwf kc hmem
  have hall := hwf
  unfold GraphConfig.wellFormed at hall
  simp only [Bool.and_eq_true, decide_eq_true_eq, List.all_eq_true, beq_iff_eq] at hall
  have := hall.2 kc hmem
  subst hk
  rw [hlook]
  refine ⟨hmem, this.1, ?_⟩
  intro e he
  have := this.2 e he
  simpa using this

theorem heapNames_append (a b : Heap) : heapNames (a ++ b) = heapNames a ++ heapNames b := by
  simp [heapNames]

theorem finished_append (config : GraphConfig) (created more : List (String × Ptr)) (c : Node)
    (hc : Finished config created c) : Finished config (created ++ more) c := by
  obtain ⟨hl, he, hk⟩ := hc
  refine ⟨hl, ?_, ?_⟩
  · rw [he]
    apply List.map_congr_left
    intro e hmem
    exact (resolve_append_left created more e (hk e hmem)).symm
  · intro e hmem
    have := hk e hmem
    simp only [mapKeys, List.map_append, List.mem_append]
    exact Or.inl this

theorem building_keys (config : GraphConfig) (h : Heap) (g : Graph) (hb : Building config h g) :
    mapKeys g.Created = heapNames h := by
  rw [hb.created_eq, mapKeys_indexNames]

theorem building_extend (config : GraphConfig) (h new : Heap) (g g' : Graph)
    (hb : Building config h g) (hb' : Building config (h ++ new) g') :
    g'.Created = g.Created ++ indexNames h.length (heapNames new) := by
  rw [hb'.created_eq, hb.created_eq, heapNames_append, indexNames_append]
  simp [heapNames]

theorem configuredEdges_append (config : GraphConfig) (a b : List Node) :
    configuredEdges config (a ++ b) = configuredEdges config a + configuredEdges config b := by
  simp [configuredEdges]

theorem edgeLoop_spec (config : GraphConfig) (fuel : Nat) (h : Heap) (g : Graph) (name : String)
    (ih : ∀ (e : String) (hc : Heap) (gc : Graph), Building config hc gc →
      e ∈ mapKeys config.NodeConfigs → missingNodes config hc < fuel →
      ∃ p h' g', CreateNodeFromConfig config fuel e (hc, gc) = some (p, (h', g')) ∧
        Built config hc gc e p h' g')
    (hfuel : ∀ hc : Heap, name ∈ heapNames hc → (∀ n ∈ heapNames h, n ∈ heapNames hc) →
      missingNodes config hc < fuel) :
    ∀ (todo handled : List String) (hc : Heap) (gc : Graph),
      EdgeLoop config h g name handled hc gc → (∀ e ∈ todo, e ∈ mapKeys config.NodeConfigs) →
      ∃ hf gf, todo.foldl (edgeStep config fuel (some h.length)) (some (hc, gc)) = some (hf, gf) ∧
        EdgeLoop config h g name (handled ++ todo) hf gf := by
  intro todo
  induction todo with
  | nil =>
    intro handled hc gc hloop _
    exact ⟨hc, gc, rfl, by simpa using hloop⟩
  | cons e rest ihrest =>
    intro handled hc gc hloop hkeys
    obtain ⟨newer, extra, hhc, hfin, hnodes, hlen, hvalid⟩ := hloop.grown
    have hnames_hc : heapNames hc = heapNames h ++ name :: heapNames newer := by
      rw [hhc, heapNames_append]
      rfl
    have hmiss : missingNodes config hc < fuel := by
      apply hfuel hc
      · rw [hnames_hc]; simp
      · intro n hn; rw [hnames_hc]; simp [hn]
    obtain ⟨p, h2, g2, hrun, hbuilt⟩ :=
      ih e hc gc hloop.building (hkeys e (List.mem_cons_self _ _)) hmiss
    obtain ⟨new2, extra2, hh2, hfin2, hnodes2, hlen2, _, hvalid2⟩ := hbuilt.grown
    have hcreated : g2.Created = gc.Created ++ indexNames hc.length (heapNames new2) := by
      have hb2 := hbuilt.building
      rw [hh2] at hb2
      exact building_extend config hc new2 gc g2 hloop.building hb2
    -- the heap after `n.AddEdge(edgeNode)`
    have hh2' : h2 = h ++ partialNode config gc.Created name handled :: (newer ++ new2) := by
      rw [hh2, hhc]
      simp
    have hadd : heapAddEdge h2 (some h.length) p =
        h ++ partialNode config g2.Created name (handled ++ [e]) :: (newer ++ new2) := by
      rw [hh2', heapAddEdge_mid]
      have hedges : handled.map (resolve gc.Created) ++ [p] =
          (handled ++ [e]).map (resolve g2.Created) := by
        rw [List.map_append, hbuilt.ptr]
        congr 1
        apply List.map_congr_left
        intro e' he'
        rw [hcreated]
        exact (resolve_append_left _ _ e' (hloop.handled_keys e' he')).symm
      simp only [Node.AddEdge, partialNode, hedges]
    have hnames3 : heapNames (heapAddEdge h2 (some h.length) p) = heapNames h2 := by
      rw [hadd, hh2']
      simp [heapNames, partialNode]
    have hlen3 : (heapAddEdge h2 (some h.length) p).length = h2.length := by
      have := congrArg List.length hnames3
      simpa [heapNames] using this
    have hstep : edgeStep config fuel (some h.length) (some (hc, gc)) e =
        some (heapAddEdge h2 (some h.length) p, g2) := by
      simp [edgeStep, hrun]
    have hloop' : EdgeLoop config h g name (handled ++ [e])
        (heapAddEdge h2 (some h.length) p) g2 :=
      { building :=
          { created_eq := by rw [hnames3]; exact hbuilt.building.created_eq
            names_nodup := by rw [hnames3]; exact hbuilt.building.names_nodup
            names_keys := by rw [hnames3]; exact hbuilt.building.names_keys }
        handled_keys := by
          intro e' he'
          rcases List.mem_append.mp he' with hold | hnew
          · rw [hcreated]
            simp only [mapKeys, List.map_append, List.mem_append]
            exact Or.inl (hloop.handled_keys e' hold)
          · rw [List.mem_singleton.mp hnew, building_keys config h2 g2 hbuilt.building]
            exact hbuilt.named
        entries := by rw [hbuilt.entries, hloop.entries]
        grown := by
          refine ⟨newer ++ new2, extra ++ extra2, hadd, ?_, ?_, ?_, ?_⟩
          · intro c hc'
            rcases List.mem_append.mp hc' with hold | hnew
            · rw [hcreated]
              exact finished_append config _ _ c (hfin c hold)
            · exact hfin2 c hnew
          · rw [hnodes2, hnodes, List.append_assoc]
          · rw [List.length_append, List.length_append, hlen, hlen2, configuredEdges_append]
            simp only [List.length_singleton]
            omega
          · intro x hx
            rcases List.mem_append.mp hx with hold | hnew
            · apply validPtr_of_length_le hc _ x _ (hvalid x hold)
              rw [hlen3, hh2, List.length_append]
              omega
            · exact validPtr_of_length_le h2 _ x (by rw [hlen3]) (hvalid2 x hnew) }
    obtain ⟨hf, gf, hfold, hfinal⟩ := ihrest (handled ++ [e]) _ g2 hloop'
      (fun e' he' => hkeys e' (List.mem_cons_of_mem _ he'))
    refine ⟨hf, gf, ?_, ?_⟩
    · rw [List.foldl_cons, hstep]
      exact hfold
    · simpa using hfinal

theorem resolve_valid (config : GraphConfig) (h : Heap) (g : Graph) (name : String)
    (hb : Building config h g) (hmem : name ∈ heapNames h) :
    validPtr h (resolve g.Created name) = true ∧
      ∃ j node, resolve g.Created name = some j ∧ h[j]? = some node ∧ node.name = name := by
  obtain ⟨j, node, hres, hnode, hname⟩ := resolve_indexNames_valid h name hb.names_nodup hmem
  rw [← hb.created_eq] at hres
  refine ⟨?_, j, node, hres, hnode, hname⟩
  rw [hres]
  simp [validPtr, deref, hnode]

theorem createNode_spec (config : GraphConfig) (hwf : config.wellFormed = true) :
    ∀ (fuel : Nat) (name : String) (h : Heap) (g : Graph),
      Building config h g → name ∈ mapKeys config.NodeConfigs → missingNodes config h < fuel →
      ∃ p h' g', CreateNodeFromConfig config fuel name (h, g) = some (p, (h', g')) ∧
        Built config h g name p h' g' := by
  intro fuel
  induction fuel with
  | zero => intro name h g _ _ hf; omega
  | succ fuel ih =>
    intro name h g hb hkey hf
    have hkeys := building_keys config h g hb
    by_cases hex : (mapGet g.Created name).isSome = true
    · -- the node exists: it is appended to `Nodes` and returned
      have hmem : name ∈ heapNames h := by
        rw [← hkeys]; exact (mapGet_isSome_iff _ _).mp hex
      refine ⟨_, _, _, createNode_existing config fuel name h g hex, ?_⟩
      exact
        { building := ⟨hb.created_eq, hb.names_nodup, hb.names_keys⟩
          named := hmem
          ptr := rfl
          entries := rfl
          grown := by
            refine ⟨[], [resolve g.Created name], by simp, by simp, rfl, ?_, by simp, ?_⟩
            · simp [configuredEdges]
            · intro x hx
              rw [List.mem_singleton.mp hx]
              exact (resolve_valid config h g name hb hmem).1 }
    · -- the node is allocated, registered, and its edges are resolved
      have hex' : (mapGet g.Created name).isSome = false := by
        cases hb' : (mapGet g.Created name).isSome with
        | true => exact absurd hb' hex
        | false => rfl
      have hnew : name ∉ heapNames h := by
        intro hmem
        rw [← hkeys] at hmem
        exact hex ((mapGet_isSome_iff _ _).mpr hmem)
      obtain ⟨_, hcfgname, hedges⟩ := config_entry config hwf name hkey
      have hloop0 : EdgeLoop config h g name []
          (h ++ [NewNode name (config.lookup name).links []])
          { g with Created := mapSet g.Created (config.lookup name).name (some h.length) } :=
        { building :=
            { created_eq := by
                show mapSet g.Created (config.lookup name).name (some h.length) = _
                rw [hcfgname, mapSet_absent _ _ _ (by rw [hkeys]; exact hnew), hb.created_eq,
                  heapNames_append, indexNames_append]
                simp [heapNames, indexNames, NewNode]
              names_nodup := by
                rw [heapNames_append]
                exact List.Nodup.append hb.names_nodup (List.nodup_singleton _)
                  (by simpa [heapNames, NewNode] using hnew)
              names_keys := by
                intro n hn
                rw [heapNames_append] at hn
                rcases List.mem_append.mp hn with hold | hnew'
                · exact hb.names_keys n hold
                · simp only [heapNames, NewNode, List.map_cons, List.map_nil,
                    List.mem_singleton] at hnew'
                  exact hnew' ▸ hkey }
          handled_keys := by intro e he; cases he
          entries := rfl
          grown := ⟨[], [], rfl, by simp, by simp, by simp [configuredEdges], by simp⟩ }
      have hfuel : ∀ hc : Heap, name ∈ heapNames hc → (∀ n ∈ heapNames h, n ∈ heapNames hc) →
          missingNodes config hc < fuel := by
        intro hc hin hsub
        have := missingNodes_lt config h hc name hsub hkey hnew hin
        omega
      obtain ⟨hf', gf, hfold, hfinal⟩ :=
        edgeLoop_spec config fuel h g name ih hfuel (config.lookup name).edges [] _ _ hloop0 hedges
      simp only [List.nil_append] at hfinal
      obtain ⟨newer, extra, hhf, hfin, hnodes, hlen, hvalid⟩ := hfinal.grown
      have hnamed : name ∈ heapNames hf' := by
        rw [hhf, heapNames_append]
        simp [heapNames, partialNode]
      have hrun : CreateNodeFromConfig config (fuel + 1) name (h, g) =
          some (resolve gf.Created name,
            (hf', { gf with Nodes := gf.Nodes ++ [resolve gf.Created name] })) := by
        rw [createNode_fresh config fuel name h g hex', hfold]
      refine ⟨_, _, _, hrun, ?_⟩
      exact
        { building := ⟨hfinal.building.created_eq, hfinal.building.names_nodup,
            hfinal.building.names_keys⟩
          named := hnamed
          ptr := rfl
          entries := hfinal.entries
          grown := by
            refine ⟨partialNode config gf.Created name (config.lookup name).edges :: newer,
              extra ++ [resolve gf.Created name], hhf, ?_, ?_, ?_, by simp, ?_⟩
            · intro c hc
              rcases List.mem_cons.mp hc with hc0 | hc1
              · subst hc0
                exact ⟨rfl, rfl, hfinal.handled_keys⟩
              · exact hfin c hc1
            · show gf.Nodes ++ [resolve gf.Created name] = _
              rw [hnodes, List.append_assoc]
            · rw [List.length_append, hlen]
              simp [configuredEdges, partialNode]
              omega
            · intro x hx
              rcases List.mem_append.mp hx with hold | hnew'
              · exact hvalid x hold
              · rw [List.mem_singleton.mp hnew']
                exact (resolve_valid config hf' gf name hfinal.building hnamed).1 }

theorem missingNodes_le_keys (config : GraphConfig) (h : Heap) :
    missingNodes config h ≤ config.NodeConfigs.length := by
  unfold missingNodes
  have h1 := List.length_filter_le (fun k => !(heapNames h).contains k)
    (mapKeys config.NodeConfigs)
  have h2 : (mapKeys config.NodeConfigs).length = config.NodeConfigs.length := by
    simp [mapKeys]
  omega

theorem nodeLoop_spec (config : GraphConfig) (hwf : config.wellFormed = true) (fuel : Nat)
    (hfuel : config.NodeConfigs.length < fuel) :
    ∀ (todo handled : List String) (h : Heap) (g : Graph),
      NodeLoop config handled h g → (∀ k ∈ todo, k ∈ mapKeys config.NodeConfigs) →
      ∃ hf gf, todo.foldl (nodeStep config fuel) (some (h, g)) = some (hf, gf) ∧
        NodeLoop config (handled ++ todo) hf gf := by
  intro todo
  induction todo with
  | nil =>
    intro handled h g hloop _
    exact ⟨h, g, rfl, by simpa using hloop⟩
  | cons k rest ih =>
    intro handled h g hloop hkeys
    have hk := hkeys k (List.mem_cons_self _ _)
    obtain ⟨_, hname, _⟩ := config_entry config hwf k hk
    have hmiss : missingNodes config h < fuel := by
      have := missingNodes_le_keys config h
      omega
    obtain ⟨p, h2, g2, hrun, hbuilt⟩ :=
      createNode_spec config hwf fuel k h g hloop.building hk hmiss
    obtain ⟨new, extra, hh2, hfin, hnodes, hlen, hp, hvalid⟩ := hbuilt.grown
    have hcreated : g2.Created = g.Created ++ indexNames h.length (heapNames new) := by
      have hb2 := hbuilt.building
      rw [hh2] at hb2
      exact building_extend config h new g g2 hloop.building hb2
    have hstep : nodeStep config fuel (some (h, g)) k = some (h2, g2) := by
      simp [nodeStep, hname, hrun]
    have hloop' : NodeLoop config (handled ++ [k]) h2 g2 :=
      { building := hbuilt.building
        finished := by
          intro c hc
          rw [hh2] at hc
          rcases List.mem_append.mp hc with hold | hnew
          · rw [hcreated]
            exact finished_append config _ _ c (hloop.finished c hold)
          · exact hfin c hnew
        handled_named := by
          intro k' hk'
          rcases List.mem_append.mp hk' with hold | hnew
          · rw [hh2, heapNames_append]
            exact List.mem_append_left _ (hloop.handled_named k' hold)
          · rw [List.mem_singleton.mp hnew]
            exact hbuilt.named
        handled_listed := by
          intro k' hk'
          rw [hnodes]
          rcases List.mem_append.mp hk' with hold | hnew
          · apply List.mem_append_left
            rw [hcreated, resolve_append_left _ _ k'
              (by rw [building_keys config h g hloop.building]; exact hloop.handled_named k' hold)]
            exact hloop.handled_listed k' hold
          · apply List.mem_append_right
            rw [List.mem_singleton.mp hnew, ← hbuilt.ptr]
            exact hp
        nodes_length := by
          rw [hnodes, List.length_append, hloop.nodes_length, hlen, hh2, configuredEdges_append,
            List.length_append]
          simp only [List.length_singleton]
          omega
        nodes_valid := by
          intro x hx
          rw [hnodes] at hx
          rcases List.mem_append.mp hx with hold | hnew
          · apply validPtr_of_length_le h _ x _ (hloop.nodes_valid x hold)
            rw [hh2, List.length_append]
            omega
          · exact hvalid x hnew
        entries := by rw [hbuilt.entries, hloop.entries] }
    obtain ⟨hf, gf, hfold, hfinal⟩ := ih (handled ++ [k]) h2 g2 hloop'
      (fun k' hk' => hkeys k' (List.mem_cons_of_mem _ hk'))
    refine ⟨hf, gf, ?_, by simpa using hfinal⟩
    rw [List.foldl_cons, hstep]
    exact hfold

theorem entryLoop_eq (entries : List String) :
    ∀ g : Graph, entries.foldl (fun (acc : Graph) name =>
        { acc with EntryPoints := acc.EntryPoints ++ [resolve acc.Created name] }) g =
      { g with EntryPoints := g.EntryPoints ++ entries.map (resolve g.Created) } := by
  induction entries with
  | nil => intro g; simp
  | cons e rest ih =>
    intro g
    rw [List.foldl_cons, ih]
    simp

theorem configuredEdges_eq_of_perm (config : GraphConfig) (hwf : config.wellFormed = true)
    (h : Heap) (hperm : (heapNames h).Perm (mapKeys config.NodeConfigs)) :
    configuredEdges config h = config.edgeCount := by
  have h1 : configuredEdges config h =
      ((heapNames h).map (fun k => (config.lookup k).edges.length)).sum := by
    simp only [configuredEdges, heapNames, List.map_map]
    rfl
  have h2 : config.edgeCount =
      ((mapKeys config.NodeConfigs).map (fun k => (config.lookup k).edges.length)).sum := by
    unfold GraphConfig.edgeCount mapKeys
    rw [List.map_map]
    congr 1
    apply List.map_congr_left
    intro kc hkc
    simp only [Function.comp]
    rw [config_lookup_of_mem config hwf kc hkc]
  rw [h1, h2]
  exact (hperm.map _).sum_eq

/-- What `ConfigGraph` returns on a well-formed configuration. -/
theorem configGraph_spec (config : GraphConfig) (order : List String) (fuel : Nat)
    (hwf : config.wellFormed = true) (horder : order.Perm (mapKeys config.NodeConfigs))
    (hfuel : config.NodeConfigs.length < fuel) :
    ∃ h g, ConfigGraph config order fuel = some (h, g) ∧ Building config h g ∧
      (∀ c ∈ h, Finished config g.Created c) ∧
      (heapNames h).Perm (mapKeys config.NodeConfigs) ∧
      g.EntryPoints = config.EntryPoints.map (resolve g.Created) ∧
      g.Nodes.length = config.NodeConfigs.length + config.edgeCount ∧
      (∀ k ∈ mapKeys config.NodeConfigs, resolve g.Created k ∈ g.Nodes) ∧
      (∀ x ∈ g.Nodes, validPtr h x = true) := by
  have hinit : NodeLoop config [] [] { Nodes := [], EntryPoints := [], Created := [] } :=
    { building := ⟨rfl, List.nodup_nil, by intro n hn; cases hn⟩
      finished := by intro c hc; cases hc
      handled_named := by intro k hk; cases hk
      handled_listed := by intro k hk; cases hk
      nodes_length := rfl
      nodes_valid := by intro x hx; cases hx
      entries := rfl }
  obtain ⟨hf, gf, hfold, hfinal⟩ := nodeLoop_spec config hwf fuel hfuel order [] [] _ hinit
    (fun k hk => horder.mem_iff.mp hk)
  simp only [List.nil_append] at hfinal
  have hperm : (heapNames hf).Perm (mapKeys config.NodeConfigs) := by
    apply (List.perm_ext_iff_of_nodup hfinal.building.names_nodup
      (config_keys_nodup config hwf)).mpr
    intro k
    constructor
    · exact hfinal.building.names_keys k
    · intro hk
      exact hfinal.handled_named k (horder.mem_iff.mpr hk)
  refine ⟨hf, { gf with EntryPoints := gf.EntryPoints ++
      config.EntryPoints.map (resolve gf.Created) }, ?_, ?_, hfinal.finished, hperm, ?_, ?_, ?_,
    hfinal.nodes_valid⟩
  · rw [configGraph_eq, hfold]
    simp only [Option.map_some', entryLoop_eq]
  · exact ⟨hfinal.building.created_eq, hfinal.building.names_nodup, hfinal.building.names_keys⟩
  · simp [hfinal.entries]
  · show gf.Nodes.length = _
    rw [hfinal.nodes_length, configuredEdges_eq_of_perm config hwf hf hperm, horder.length_eq]
    simp [mapKeys]
  · intro k hk
    exact hfinal.handled_listed k (horder.mem_iff.mpr hk)

theorem resolve_none_of_not_key (created : List (String × Ptr)) (name : String)
    (hk : name ∉ mapKeys created) : resolve created name = none := by
  unfold resolve
  cases hget : mapGet created name with
  | none => rfl
  | some v =>
    exfalso
    apply hk
    apply (mapGet_isSome_iff created name).mp
    rw [hget]
    rfl

theorem resolve_injective (config : GraphConfig) (h : Heap) (g : Graph) (a b : String)
    (hb : Building config h g) (ha : a ∈ heapNames h)
    (heq : resolve g.Created a = resolve g.Created b) : a = b := by
  obtain ⟨_, j, node, hres, hnode, hname⟩ := resolve_valid config h g a hb ha
  by_cases hbmem : b ∈ heapNames h
  · obtain ⟨_, j', node', hres', hnode', hname'⟩ := resolve_valid config h g b hb hbmem
    rw [hres, hres'] at heq
    have hj : j = j' := Option.some.inj heq
    subst hj
    rw [hnode] at hnode'
    cases hnode'
    rw [← hname, ← hname']
  · have hnone := resolve_none_of_not_key g.Created b
      (by rw [building_keys config h g hb]; exact hbmem)
    rw [hres, hnone] at heq
    cases heq

theorem built_wellFormed (config : GraphConfig) (h : Heap) (g : Graph)
    (hb : Building config h g) (hfin : ∀ c ∈ h, Finished config g.Created c) :
    wellFormed h = true := by
  unfold wellFormed
  rw [List.all_eq_true]
  intro node hnode
  rw [List.all_eq_true]
  intro e he
  obtain ⟨_, hedges, hkeys⟩ := hfin node hnode
  rw [hedges] at he
  obtain ⟨nm, hnm, rfl⟩ := List.mem_map.mp he
  have hmem : nm ∈ heapNames h := by
    rw [← building_keys config h g hb]
    exact hkeys nm hnm
  exact (resolve_valid config h g nm hb hmem).1

theorem edgeFold_fuel_mono (config : GraphConfig) (fuel k : Nat) (n : Ptr)
    (ih : ∀ (name : String) (st : Heap × Graph) (r : Ptr × (Heap × Graph)),
      CreateNodeFromConfig config fuel name st = some r →
      CreateNodeFromConfig config (fuel + k) name st = some r) :
    ∀ (es : List String) (acc : Option (Heap × Graph)) (r : Heap × Graph),
      es.foldl (edgeStep config fuel n) acc = some r →
      es.foldl (edgeStep config (fuel + k) n) acc = some r := by
  intro es
  induction es with
  | nil => intro acc r hr; exact hr
  | cons e rest ihrest =>
    intro acc r hr
    cases acc with
    | none =>
      rw [List.foldl_cons] at hr
      have : edgeStep config fuel n none e = none := rfl
      rw [this, edgeStep_none] at hr
      cases hr
    | some st =>
      rw [List.foldl_cons] at hr ⊢
      cases hc : CreateNodeFromConfig config fuel e st with
      | none =>
        have : edgeStep config fuel n (some st) e = none := by simp [edgeStep, hc]
        rw [this, edgeStep_none] at hr
        cases hr
      | some res =>
        have h1 : edgeStep config fuel n (some st) e =
            some (heapAddEdge res.2.1 n res.1, res.2.2) := by simp [edgeStep, hc]
        have h2 : edgeStep config (fuel + k) n (some st) e =
            some (heapAddEdge res.2.1 n res.1, res.2.2) := by
          simp [edgeStep, ih e st res hc]
        rw [h1] at hr
        rw [h2]
        exact ihrest _ r hr

theorem createNode_fuel_mono (config : GraphConfig) (k : Nat) :
    ∀ (fuel : Nat) (name : String) (st : Heap × Graph) (r : Ptr × (Heap × Graph)),
      CreateNodeFromConfig config fuel name st = some r →
      CreateNodeFromConfig config (fuel + k) name st = some r := by
  intro fuel
  induction fuel with
  | zero => intro name st r hr; cases hr
  | succ fuel ih =>
    intro name st r hr
    obtain ⟨h, g⟩ := st
    have hk : fuel + 1 + k = (fuel + k) + 1 := by omega
    rw [hk]
    cases hex : (mapGet g.Created name).isSome with
    | true =>
      rw [createNode_existing config fuel name h g hex] at hr
      rw [createNode_existing config (fuel + k) name h g hex]
      exact hr
    | false =>
      rw [createNode_fresh config fuel name h g hex] at hr
      rw [createNode_fresh config (fuel + k) name h g hex]
      cases hfold : (config.lookup name).edges.foldl (edgeStep config fuel (some h.length))
          (some (h ++ [NewNode name (config.lookup name).links []],
            { g with Created := mapSet g.Created (config.lookup name).name (some h.length) })) with
      | none =>
        rw [hfold] at hr
        cases hr
      | some st' =>
        rw [hfold] at hr
        rw [edgeFold_fuel_mono config fuel k (some h.length) ih _ _ st' hfold]
        exact hr

theorem nodeFold_fuel_mono (config : GraphConfig) (fuel k : Nat) :
    ∀ (keys : List String) (acc : Option (Heap × Graph)) (r : Heap × Graph),
      keys.foldl (nodeStep config fuel) acc = some r →
      keys.foldl (nodeStep config (fuel + k)) acc = some r := by
  intro keys
  induction keys with
  | nil => intro acc r hr; exact hr
  | cons e rest ihrest =>
    intro acc r hr
    cases acc with
    | none =>
      rw [List.foldl_cons] at hr
      have : nodeStep config fuel none e = none := rfl
      rw [this, nodeStep_none] at hr
      cases hr
    | some st =>
      rw [List.foldl_cons] at hr ⊢
      cases hc : CreateNodeFromConfig config fuel (config.lookup e).name st with
      | none =>
        have : nodeStep config fuel (some st) e = none := by simp [nodeStep, hc]
        rw [this, nodeStep_none] at hr
        cases hr
      | some res =>
        have h1 : nodeStep config fuel (some st) e = some res.2 := by simp [nodeStep, hc]
        have h2 : nodeStep config (fuel + k) (some st) e = some res.2 := by
          simp [nodeStep, createNode_fuel_mono config k fuel _ st res hc]
        rw [h1] at hr
        rw [h2]
        exact ihrest _ r hr

theorem configGraph_fuel_mono (config : GraphConfig) (order : List String) (fuel k : Nat)
    (r : Heap × Graph) (hr : ConfigGraph config order fuel = some r) :
    ConfigGraph config order (fuel + k) = some r := by
  rw [configGraph_eq] at hr ⊢
  cases hfold : order.foldl (nodeStep config fuel)
      (some ([], { Nodes := [], EntryPoints := [], Created := [] })) with
  | none =>
    rw [hfold] at hr
    cases hr
  | some st =>
    rw [hfold] at hr
    rw [nodeFold_fuel_mono config fuel k order _ st hfold]
    exact hr

/-! ### Graph construction -/

/-- C13 (graph construction materializes each named node once and wires edges by
identity). For a configuration whose keys equal the name fields of their entries and whose
edge names and entry-point names are keys, for every order in which the map is ranged over
and every recursion bound above the number of entries, `ConfigGraph` returns a graph: the
keys of `Created` are exactly the configured names; the node created for a name carries
that name and its configured links, and its edges are the created nodes of its configured
edge names, in order, none of them nil; distinct names have distinct nodes; one node is
allocated per name; and `EntryPoints` lists the created nodes of the configured entry-point
names, in order, none of them nil. -/
theorem configGraph_materializes (config : GraphConfig) (order : List String) (fuel : Nat)
    (hwf : config.wellFormed = true) (hentries : config.entriesDefined = true)
    (horder : order.Perm (mapKeys config.NodeConfigs))
    (hfuel : config.NodeConfigs.length < fuel) :
    ∃ h g, ConfigGraph config order fuel = some (h, g) ∧
      (mapKeys g.Created).Perm (mapKeys config.NodeConfigs) ∧
      (∀ name cfg, (name, cfg) ∈ config.NodeConfigs →
        ∃ i node, mapGet g.Created name = some (some i) ∧ h[i]? = some node ∧
          node.name = name ∧ node.links = cfg.links ∧
          node.edges = cfg.edges.map (fun e => (mapGet g.Created e).getD none) ∧
          ∀ e ∈ node.edges, validPtr h e = true) ∧
      (∀ a b, a ∈ mapKeys config.NodeConfigs →
        (mapGet g.Created a).getD none = (mapGet g.Created b).getD none → a = b) ∧
      h.length = config.NodeConfigs.length ∧
      g.EntryPoints = config.EntryPoints.map (fun e => (mapGet g.Created e).getD none) ∧
      (∀ p ∈ g.EntryPoints, validPtr h p = true) := by
  obtain ⟨h, g, hrun, hb, hfin, hperm, hentry, _, _, _⟩ :=
    configGraph_spec config order fuel hwf horder hfuel
  have hkeys := building_keys config h g hb
  have hwfh := built_wellFormed config h g hb hfin
  refine ⟨h, g, hrun, by rw [hkeys]; exact hperm, ?_, ?_, ?_, hentry, ?_⟩
  · intro name cfg hmem
    have hkey : name ∈ mapKeys config.NodeConfigs := List.mem_map.mpr ⟨(name, cfg), hmem, rfl⟩
    have hlook : config.lookup name = cfg := config_lookup_of_mem config hwf (name, cfg) hmem
    have hnamed : name ∈ heapNames h := hperm.mem_iff.mpr hkey
    obtain ⟨_, i, node, hres, hnode, hname⟩ := resolve_valid config h g name hb hnamed
    obtain ⟨hlinks, hedges, _⟩ := hfin node (List.getElem?_mem hnode)
    rw [hname, hlook] at hlinks hedges
    refine ⟨i, node, ?_, hnode, hname, hlinks, hedges, ?_⟩
    · unfold resolve at hres
      cases hget : mapGet g.Created name with
      | none => rw [hget] at hres; cases hres
      | some v =>
        rw [hget] at hres
        simp only [Option.getD_some] at hres
        rw [hres]
    · intro e he
      have := hwfh
      unfold wellFormed at this
      rw [List.all_eq_true] at this
      have hn := this node (List.getElem?_mem hnode)
      rw [List.all_eq_true] at hn
      exact hn e he
  · intro a b ha heq
    exact resolve_injective config h g a b hb (hperm.mem_iff.mpr ha) heq
  · have := hperm.length_eq
    simpa [heapNames, mapKeys] using this
  · intro p hp
    rw [hentry] at hp
    obtain ⟨e, he, rfl⟩ := List.mem_map.mp hp
    have hekey : e ∈ mapKeys config.NodeConfigs := by
      have := hentries
      unfold GraphConfig.entriesDefined at this
      rw [List.all_eq_true] at this
      simpa using this e he
    exact (resolve_valid config h g e hb (hperm.mem_iff.mpr hekey)).1

/-- Witness of C13: the cyclic configuration, ranged over in the order `B`, `A`. -/
theorem configGraph_materializes_witness :
    cyclicConfig.wellFormed = true ∧ cyclicConfig.entriesDefined = true ∧
    ["B", "A"].Perm (mapKeys cyclicConfig.NodeConfigs) ∧ cyclicConfig.NodeConfigs.length < 3 ∧
    ConfigGraph cyclicConfig ["B", "A"] 3 =
      some ([NewNode "B" "YZ" [some 1], NewNode "A" "XY" [some 0, some 1]],
        { Nodes := [some 0, some 1, some 1, some 0, some 1],
          EntryPoints := [some 1],
          Created := [("B", some 0), ("A", some 1)] }) ∧
    ∃ h g, ConfigGraph cyclicConfig ["B", "A"] 3 = some (h, g) ∧
      (mapKeys g.Created).Perm (mapKeys cyclicConfig.NodeConfigs) ∧
      (∀ name cfg, (name, cfg) ∈ cyclicConfig.NodeConfigs →
        ∃ i node, mapGet g.Created name = some (some i) ∧ h[i]? = some node ∧
          node.name = name ∧ node.links = cfg.links ∧
          node.edges = cfg.edges.map (fun e => (mapGet g.Created e).getD none) ∧
          ∀ e ∈ node.edges, validPtr h e = true) ∧
      (∀ a b, a ∈ mapKeys cyclicConfig.NodeConfigs →
        (mapGet g.Created a).getD none = (mapGet g.Created b).getD none → a = b) ∧
      h.length = cyclicConfig.NodeConfigs.length ∧
      g.EntryPoints = cyclicConfig.EntryPoints.map (fun e => (mapGet g.Created e).getD none) ∧
      (∀ p ∈ g.EntryPoints, validPtr h p = true) :=
  ⟨by decide, by decide, by decide, by decide, by decide,
    configGraph_materializes cyclicConfig ["B", "A"] 3 (by decide) (by decide) (by decide)
      (by decide)⟩

/-- C14 as stated fails on the code: in the graph `ConfigGraphDefault` builds, the node
`two` (cell 1), reachable from the entry point `one` (cell 0), occurs three times in
`Nodes`, and `Nodes` has 21 elements for 9 nodes. -/
theorem nodes_not_deduplicated :
    ∃ h g, ConfigGraphDefault (mapKeys defaultConfig.NodeConfigs) = some (h, g) ∧
      g.EntryPoints = [some 0, some 8] ∧ Reach h (some 0) (some 1) ∧
      (deref h (some 1)).map (fun n => n.name) = some "two" ∧
      g.Nodes.count (some 1) = 3 ∧ g.Nodes.length = 21 ∧ h.length = 9 :=
  ⟨defaultHeap, _, configGraphDefault_literal_order, rfl,
    Relation.ReflTransGen.single ⟨NewNode "one" "ABC" [some 1, some 3], rfl, by decide⟩,
    by decide, by decide, by decide, by decide⟩

/-- C14 amended (node identity is deduplicated, the `Nodes` list is not). For a well-formed
configuration the `Created` map of the graph `ConfigGraph` returns has one entry per name
and distinct names have distinct nodes; every configured node occurs in `Nodes` at least
once, and `Nodes` holds nothing but these nodes. -/
theorem nodes_lists_every_node (config : GraphConfig) (order : List String) (fuel : Nat)
    (hwf : config.wellFormed = true) (horder : order.Perm (mapKeys config.NodeConfigs))
    (hfuel : config.NodeConfigs.length < fuel) :
    ∃ h g, ConfigGraph config order fuel = some (h, g) ∧
      (mapKeys g.Created).Nodup ∧
      (∀ a b, a ∈ mapKeys config.NodeConfigs → resolve g.Created a = resolve g.Created b →
        a = b) ∧
      (∀ k ∈ mapKeys config.NodeConfigs, resolve g.Created k ∈ g.Nodes) ∧
      (∀ x ∈ g.Nodes, ∃ k ∈ mapKeys config.NodeConfigs, x = resolve g.Created k) := by
  obtain ⟨h, g, hrun, hb, _, hperm, _, _, hlisted, hvalid⟩ :=
    configGraph_spec config order fuel hwf horder hfuel
  refine ⟨h, g, hrun, by rw [building_keys config h g hb]; exact hb.names_nodup, ?_, hlisted, ?_⟩
  · intro a b ha heq
    exact resolve_injective config h g a b hb (hperm.mem_iff.mpr ha) heq
  · intro x hx
    obtain ⟨i, hxi, hlt⟩ := (validPtr_iff h x).mp (hvalid x hx)
    have hname : (heapNames h)[i]? = some (h[i]).name := by
      simp [heapNames, List.getElem?_eq_getElem hlt]
    refine ⟨(h[i]).name, hb.names_keys _ (List.getElem?_mem hname), ?_⟩
    have hget := mapGet_indexNames (heapNames h) hb.names_nodup 0 i _ hname
    rw [← hb.created_eq] at hget
    simp [resolve, hget, hxi]

/-- Witness of C14 amended: the default configuration in its literal order. -/
theorem nodes_lists_every_node_witness :
    defaultConfig.wellFormed = true ∧
    (mapKeys defaultConfig.NodeConfigs).Perm (mapKeys defaultConfig.NodeConfigs) ∧
    defaultConfig.NodeConfigs.length < 10 ∧
    ∃ h g, ConfigGraph defaultConfig (mapKeys defaultConfig.NodeConfigs) 10 = some (h, g) ∧
      (mapKeys g.Created).Nodup ∧
      (∀ a b, a ∈ mapKeys defaultConfig.NodeConfigs →
        resolve g.Created a = resolve g.Created b → a = b) ∧
      (∀ k ∈ mapKeys defaultConfig.NodeConfigs, resolve g.Created k ∈ g.Nodes) ∧
      (∀ x ∈ g.Nodes, ∃ k ∈ mapKeys defaultConfig.NodeConfigs, x = resolve g.Created k) :=
  ⟨by decide, List.Perm.refl _, by decide,
    nodes_lists_every_node defaultConfig (mapKeys defaultConfig.NodeConfigs) 10 (by decide)
      (List.Perm.refl _) (by decide)⟩

/-- C15 as stated fails on the code: for a configuration with an edge to the undefined
name `ghost` and the undefined entry point `nowhere`, `ConfigGraph` returns a graph; the
edge of `a` is nil, the second entry point is nil, and a node for `ghost` has been
registered under the empty name. -/
theorem undefined_names_not_reported :
    ConfigGraph ghostConfig (mapKeys ghostConfig.NodeConfigs) 5 =
      some ([NewNode "a" "X" [none], NewNode "ghost" "" []],
        { Nodes := [none, some 0],
          EntryPoints := [some 0, none],
          Created := [("a", some 0), ("", some 1)] }) := by
  decide

/-- C15 amended (undefined entry points become nil). `ConfigGraph` has no error result: for
a configuration whose node entries are well formed it returns a graph whose `EntryPoints`
are the `Created` lookups of the configured entry-point names, in order; the lookup of a
name that is a key is its node, and the lookup of a name that is no key is nil. -/
theorem undefined_entry_is_nil (config : GraphConfig) (order : List String) (fuel : Nat)
    (hwf : config.wellFormed = true) (horder : order.Perm (mapKeys config.NodeConfigs))
    (hfuel : config.NodeConfigs.length < fuel) :
    ∃ h g, ConfigGraph config order fuel = some (h, g) ∧
      g.EntryPoints = config.EntryPoints.map (fun e => (mapGet g.Created e).getD none) ∧
      (∀ e, e ∈ mapKeys config.NodeConfigs →
        validPtr h ((mapGet g.Created e).getD none) = true) ∧
      (∀ e, e ∉ mapKeys config.NodeConfigs → (mapGet g.Created e).getD none = none) := by
  obtain ⟨h, g, hrun, hb, _, hperm, hentry, _, _, _⟩ :=
    configGraph_spec config order fuel hwf horder hfuel
  refine ⟨h, g, hrun, hentry, ?_, ?_⟩
  · intro e he
    exact (resolve_valid config h g e hb (hperm.mem_iff.mpr he)).1
  · intro e he
    apply resolve_none_of_not_key
    rw [building_keys config h g hb]
    exact fun hmem => he (hperm.mem_iff.mp hmem)

/-- Witness of C15 amended: the cyclic configuration with the extra entry point `nowhere`;
the second entry point of the graph is nil. -/
theorem undefined_entry_is_nil_witness :
    danglingEntryConfig.wellFormed = true ∧
    ["B", "A"].Perm (mapKeys danglingEntryConfig.NodeConfigs) ∧
    danglingEntryConfig.NodeConfigs.length < 3 ∧
    (ConfigGraph danglingEntryConfig ["B", "A"] 3).map (fun r => r.2.EntryPoints) =
      some [some 1, none] ∧
    ∃ h g, ConfigGraph danglingEntryConfig ["B", "A"] 3 = some (h, g) ∧
      g.EntryPoints =
        danglingEntryConfig.EntryPoints.map (fun e => (mapGet g.Created e).getD none) ∧
      (∀ e, e ∈ mapKeys danglingEntryConfig.NodeConfigs →
        validPtr h ((mapGet g.Created e).getD none) = true) ∧
      (∀ e, e ∉ mapKeys danglingEntryConfig.NodeConfigs →
        (mapGet g.Created e).getD none = none) :=
  ⟨by decide, by decide, by decide, by decide,
    undefined_entry_is_nil danglingEntryConfig ["B", "A"] 3 (by decide) (by decide) (by decide)⟩

/-- C16 (construction terminates on cyclic configurations). For a well-formed
configuration, cyclic or not, and every order in which the map is ranged over,
`ConfigGraph` returns with recursion depth at most the number of entries plus one, and
every larger bound gives the same graph; the heap holds exactly one cell for each
configured name and none for any other name, so `NewNode` runs once per name. -/
theorem configGraph_terminates (config : GraphConfig) (order : List String)
    (hwf : config.wellFormed = true) (horder : order.Perm (mapKeys config.NodeConfigs)) :
    ∃ h g, ConfigGraph config order (config.NodeConfigs.length + 1) = some (h, g) ∧
      (∀ fuel, config.NodeConfigs.length < fuel → ConfigGraph config order fuel = some (h, g)) ∧
      (∀ name, (heapNames h).count name = if name ∈ mapKeys config.NodeConfigs then 1 else 0) ∧
      h.length = config.NodeConfigs.length := by
  obtain ⟨h, g, hrun, hb, _, hperm, _, _, _, _⟩ :=
    configGraph_spec config order (config.NodeConfigs.length + 1) hwf horder (by omega)
  refine ⟨h, g, hrun, ?_, ?_, ?_⟩
  · intro fuel hf
    obtain ⟨k, hk⟩ := Nat.exists_eq_add_of_le (Nat.succ_le_of_lt hf)
    rw [hk]
    exact configGraph_fuel_mono config order _ k (h, g) hrun
  · intro name
    by_cases hk : name ∈ mapKeys config.NodeConfigs
    · rw [if_pos hk]
      exact List.count_eq_one_of_mem hb.names_nodup (hperm.mem_iff.mpr hk)
    · rw [if_neg hk]
      exact List.count_eq_zero_of_not_mem (fun hmem => hk (hperm.mem_iff.mp hmem))
  · have := hperm.length_eq
    simpa [heapNames, mapKeys] using this

/-- Witness of C16: the configuration with the cycle `A -> B -> A` and the loop `A -> A`. -/
theorem configGraph_terminates_witness :
    cyclicConfig.wellFormed = true ∧
    (mapKeys cyclicConfig.NodeConfigs).Perm (mapKeys cyclicConfig.NodeConfigs) ∧
    ConfigGraph cyclicConfig (mapKeys cyclicConfig.NodeConfigs) 3 =
      some ([NewNode "A" "XY" [some 1, some 0], NewNode "B" "YZ" [some 0]],
        { Nodes := [some 0, some 1, some 0, some 0, some 1],
          EntryPoints := [some 0],
          Created := [("A", some 0), ("B", some 1)] }) ∧
    ∃ h g, ConfigGraph cyclicConfig (mapKeys cyclicConfig.NodeConfigs)
        (cyclicConfig.NodeConfigs.length + 1) = some (h, g) ∧
      (∀ fuel, cyclicConfig.NodeConfigs.length < fuel →
        ConfigGraph cyclicConfig (mapKeys cyclicConfig.NodeConfigs) fuel = some (h, g)) ∧
      (∀ name, (heapNames h).count name =
        if name ∈ mapKeys cyclicConfig.NodeConfigs then 1 else 0) ∧
      h.length = cyclicConfig.NodeConfigs.length :=
  ⟨by decide, List.Perm.refl _, by decide,
    configGraph_terminates cyclicConfig (mapKeys cyclicConfig.NodeConfigs) (by decide)
      (List.Perm.refl _)⟩

/-- C20 (length of `Graph.Nodes`). For a well-formed configuration, every order in which
the map is ranged over and every sufficient recursion bound, the `Nodes` list of the graph
`ConfigGraph` returns has as many elements as there are entries in `NodeConfigs` plus edge
names over all entries. -/
theorem configGraph_nodes_length (config : GraphConfig) (order : List String) (fuel : Nat)
    (hwf : config.wellFormed = true) (horder : order.Perm (mapKeys config.NodeConfigs))
    (hfuel : config.NodeConfigs.length < fuel) :
    ∃ h g, ConfigGraph config order fuel = some (h, g) ∧
      g.Nodes.length = config.NodeConfigs.length + config.edgeCount := by
  obtain ⟨h, g, hrun, _, _, _, _, hlen, _, _⟩ :=
    configGraph_spec config order fuel hwf horder hfuel
  exact ⟨h, g, hrun, hlen⟩

/-- Witness of C20: for the default configuration the `Nodes` list has 9 + 12 = 21
elements. -/
theorem configGraph_nodes_length_witness :
    defaultConfig.wellFormed = true ∧
    (mapKeys defaultConfig.NodeConfigs).Perm (mapKeys defaultConfig.NodeConfigs) ∧
    defaultConfig.NodeConfigs.length < 10 ∧
    defaultConfig.NodeConfigs.length = 9 ∧ defaultConfig.edgeCount = 12 ∧
    (ConfigGraphDefault (mapKeys defaultConfig.NodeConfigs)).map (fun r => r.2.Nodes.length) =
      some 21 ∧
    ∃ h g, ConfigGraph defaultConfig (mapKeys defaultConfig.NodeConfigs) 10 = some (h, g) ∧
      g.Nodes.length = defaultConfig.NodeConfigs.length + defaultConfig.edgeCount :=
  ⟨by decide, List.Perm.refl _, by decide, by decide, by decide, by decide,
    configGraph_nodes_length defaultConfig (mapKeys defaultConfig.NodeConfigs) 10 (by decide)
      (List.Perm.refl _) (by decide)⟩

/-! ### The shipped program -/

theorem occurrences_some (h : Heap) (sym : String) (i : Nat) :
    occurrences h sym (some i) = ((h[i]?).map (fun c => c.GetLinks.count sym)).getD 0 := by
  unfold occurrences
  show (match h[i]? with
    | none => 0
    | some node => node.GetLinks.count sym) = _
  cases h[i]? <;> rfl

theorem sum_range_getElem (l : List Node) (f : Node → Nat) :
    ((List.range l.length).map (fun i => ((l[i]?).map f).getD 0)).sum = (l.map f).sum := by
  induction l with
  | nil => rfl
  | cons a rest ih =>
    rw [List.length_cons, List.range_succ_eq_map, List.map_cons, List.map_map, List.sum_cons,
      List.map_cons, List.sum_cons]
    have hfun : ((fun i => (((a :: rest)[i]?).map f).getD 0) ∘ Nat.succ) =
        (fun i => ((rest[i]?).map f).getD 0) := by
      funext i
      simp
    rw [hfun, ih]
    simp

theorem tally_allCells (h : Heap) (sym : String) :
    tally h sym (allCells h) = (h.map (fun c => c.GetLinks.count sym)).sum := by
  unfold tally allCells
  rw [List.map_map]
  have hfun : (occurrences h sym ∘ some) =
      (fun i => ((h[i]?).map (fun c => c.GetLinks.count sym)).getD 0) := by
    funext i
    exact occurrences_some h sym i
  rw [hfun, sum_range_getElem]

theorem tally_built (config : GraphConfig) (hwf : config.wellFormed = true) (h : Heap)
    (g : Graph) (hfin : ∀ c ∈ h, Finished config g.Created c)
    (hperm : (heapNames h).Perm (mapKeys config.NodeConfigs)) (sym : String) :
    tally h sym (allCells h) = config.symbols.count sym := by
  rw [tally_allCells]
  have h1 : h.map (fun c => c.GetLinks.count sym) =
      (heapNames h).map (fun k => (symbolsOf (config.lookup k).links).count sym) := by
    unfold heapNames
    rw [List.map_map]
    apply List.map_congr_left
    intro c hc
    simp only [Function.comp]
    rw [← (hfin c hc).1]
    rfl
  have h2 : config.symbols.count sym =
      ((mapKeys config.NodeConfigs).map
        (fun k => (symbolsOf (config.lookup k).links).count sym)).sum := by
    unfold GraphConfig.symbols mapKeys
    rw [List.count_flatten, List.map_map, List.map_map]
    congr 1
    apply List.map_congr_left
    intro kc hkc
    simp only [Function.comp]
    rw [config_lookup_of_mem config hwf kc hkc]
  rw [h1, h2]
  exact (hperm.map _).sum_eq

theorem edge_of_config (config : GraphConfig) (h : Heap) (g : Graph) (a b : String)
    (hb : Building config h g) (hfin : ∀ c ∈ h, Finished config g.Created c)
    (ha : a ∈ heapNames h) (hab : b ∈ (config.lookup a).edges) :
    Edge h (resolve g.Created a) (resolve g.Created b) := by
  obtain ⟨_, j, node, hres, hnode, hname⟩ := resolve_valid config h g a hb ha
  obtain ⟨_, hedges, _⟩ := hfin node (List.getElem?_mem hnode)
  refine ⟨node, by rw [hres]; exact hnode, ?_⟩
  rw [hedges, hname]
  exact List.mem_map.mpr ⟨b, hab, rfl⟩

theorem reach_valid (h : Heap) (hwf : wellFormed h = true) (a b : Ptr)
    (ha : validPtr h a = true) (hreach : Reach h a b) : validPtr h b = true := by
  induction hreach with
  | refl => exact ha
  | tail _ hedge _ => exact edge_valid h hwf _ _ hedge

theorem expectedCounts_of_symbols (sym : String) :
    bump none (defaultConfig.symbols.count sym) = mapGet expectedCounts sym := by
  by_cases hmem : sym ∈ defaultConfig.symbols
  · have hall : ∀ s ∈ defaultConfig.symbols,
        bump none (defaultConfig.symbols.count s) = mapGet expectedCounts s := by decide
    exact hall sym hmem
  · rw [List.count_eq_zero_of_not_mem hmem]
    have hkeys : ∀ k ∈ mapKeys expectedCounts, k ∈ defaultConfig.symbols := by decide
    cases hget : mapGet expectedCounts sym with
    | none => rfl
    | some v =>
      exfalso
      apply hmem
      apply hkeys
      apply (mapGet_isSome_iff expectedCounts sym).mp
      rw [hget]
      rfl

theorem allCells_nodup (h : Heap) : (allCells h).Nodup := by
  unfold allCells
  exact (List.nodup_range _).map (fun a b hab => Option.some.inj hab)

theorem mem_allCells (h : Heap) (p : Ptr) : p ∈ allCells h ↔ validPtr h p = true := by
  rw [validPtr_iff]
  unfold allCells
  simp only [List.mem_map, List.mem_range]
  constructor
  · rintro ⟨i, hi, rfl⟩; exact ⟨i, rfl, hi⟩
  · rintro ⟨i, rfl, hi⟩; exact ⟨i, hi, rfl⟩

theorem settled_all_cells (h : Heap) (hwf : wellFormed h = true) (handled : List Ptr)
    (s : Shared) (hs : Settled h handled s) (hvalid : ∀ e ∈ handled, validPtr h e = true)
    (hall : ∀ p, validPtr h p = true → ∃ e ∈ handled, Reach h e p) :
    s.tracker.nodes.Perm (allCells h) := by
  apply (List.perm_ext_iff_of_nodup hs.nodes_nodup (allCells_nodup h)).mpr
  intro p
  rw [hs.nodes_iff, mem_allCells]
  constructor
  · rintro ⟨e, he, hreach⟩
    exact reach_valid h hwf e p (hvalid e he) hreach
  · exact hall p

theorem default_reach (h : Heap) (g : Graph) (hb : Building defaultConfig h g)
    (hfin : ∀ c ∈ h, Finished defaultConfig g.Created c)
    (hperm : (heapNames h).Perm (mapKeys defaultConfig.NodeConfigs)) :
    ∀ k ∈ mapKeys defaultConfig.NodeConfigs,
      Reach h (resolve g.Created "one") (resolve g.Created k) := by
  have hE : ∀ a b, a ∈ mapKeys defaultConfig.NodeConfigs → b ∈ (defaultConfig.lookup a).edges →
      Edge h (resolve g.Created a) (resolve g.Created b) := fun a b ha hab =>
    edge_of_config defaultConfig h g a b hb hfin (hperm.mem_iff.mpr ha) hab
  have r1 : Reach h (resolve g.Created "one") (resolve g.Created "one") :=
    Relation.ReflTransGen.refl
  have r2 : Reach h (resolve g.Created "one") (resolve g.Created "two") :=
    r1.tail (hE "one" "two" (by decide) (by decide))
  have r3 : Reach h (resolve g.Created "one") (resolve g.Created "three") :=
    r1.tail (hE "one" "three" (by decide) (by decide))
  have r4 : Reach h (resolve g.Created "one") (resolve g.Created "four") :=
    r2.tail (hE "two" "four" (by decide) (by decide))
  have r5 : Reach h (resolve g.Created "one") (resolve g.Created "five") :=
    r3.tail (hE "three" "five" (by decide) (by decide))
  have r6 : Reach h (resolve g.Created "one") (resolve g.Created "six") :=
    r3.tail (hE "three" "six" (by decide) (by decide))
  have r7 : Reach h (resolve g.Created "one") (resolve g.Created "seven") :=
    r3.tail (hE "three" "seven" (by decide) (by decide))
  have r8 : Reach h (resolve g.Created "one") (resolve g.Created "eight") :=
    r5.tail (hE "five" "eight" (by decide) (by decide))
  have r9 : Reach h (resolve g.Created "one") (resolve g.Created "nine") :=
    r6.tail (hE "six" "nine" (by decide) (by decide))
  intro k hk
  have hcases : k = "one" ∨ k = "two" ∨ k = "three" ∨ k = "four" ∨ k = "five" ∨ k = "six" ∨
      k = "seven" ∨ k = "eight" ∨ k = "nine" := by
    simpa [mapKeys, defaultConfig] using hk
  rcases hcases with rfl | rfl | rfl | rfl | rfl | rfl | rfl | rfl | rfl
  · exact r1
  · exact r2
  · exact r3
  · exact r4
  · exact r5
  · exact r6
  · exact r7
  · exact r8
  · exact r9

theorem settled_default_counts (h : Heap) (g : Graph) (handled : List Ptr) (s : Shared)
    (hb : Building defaultConfig h g) (hfin : ∀ c ∈ h, Finished defaultConfig g.Created c)
    (hperm : (heapNames h).Perm (mapKeys defaultConfig.NodeConfigs))
    (hs : Settled h handled s) (hvalid : ∀ e ∈ handled, validPtr h e = true)
    (hone : resolve g.Created "one" ∈ handled) :
    (∀ sym, s.counter.get sym = mapGet expectedCounts sym) ∧
    s.tracker.nodes.Perm (allCells h) ∧ s.counter.counter.length = 13 := by
  have hwfh := built_wellFormed defaultConfig h g hb hfin
  have hall : ∀ p, validPtr h p = true → ∃ e ∈ handled, Reach h e p := by
    intro p hp
    obtain ⟨i, rfl, hlt⟩ := (validPtr_iff h p).mp hp
    have hname : (heapNames h)[i]? = some (h[i]).name := by
      simp [heapNames, List.getElem?_eq_getElem hlt]
    have hkey := hb.names_keys _ (List.getElem?_mem hname)
    have hget := mapGet_indexNames (heapNames h) hb.names_nodup 0 i _ hname
    rw [← hb.created_eq] at hget
    have hres : resolve g.Created (h[i]).name = some i := by simp [resolve, hget]
    refine ⟨_, hone, ?_⟩
    rw [← hres]
    exact default_reach h g hb hfin hperm _ hkey
  have hnodes := settled_all_cells h hwfh handled s hs hvalid hall
  have hcounts : ∀ sym, s.counter.get sym = mapGet expectedCounts sym := by
    intro sym
    rw [hs.counts sym, tally_perm h sym hnodes,
      tally_built defaultConfig (by decide) h g hfin hperm sym]
    exact expectedCounts_of_symbols sym
  refine ⟨hcounts, hnodes, ?_⟩
  have hkeys : (mapKeys s.counter.counter).Perm (mapKeys expectedCounts) := by
    apply (List.perm_ext_iff_of_nodup hs.counter_nodup (by decide)).mpr
    intro sym
    rw [← mapGet_isSome_iff, ← mapGet_isSome_iff]
    have := hcounts sym
    unfold Counter.get at this
    rw [this]
  have := hkeys.length_eq
  simpa [mapKeys, expectedCounts] using this

/-- C19 (result of the shipped program). For every order in which the configuration map
is ranged over, `ConfigGraphDefault` returns a graph of nine nodes with the entry points
`one` and `nine`, and running the two `CountLinks` workers to completion one after the
other from the empty queue, tracker and counter, in either order, ends normally with the
counter holding exactly A=8, B=7, C=1, D=2, E=1, F=2, G=1, H=2, J=1, K=2, O=1, S=1, V=1
(13 symbols, 30 counts in total) and with all nine nodes marked visited. -/
theorem default_program_counts (order : List String)
    (horder : order.Perm (mapKeys defaultConfig.NodeConfigs)) :
    ∃ h g e1 e9, ConfigGraphDefault order = some (h, g) ∧ g.EntryPoints = [e1, e9] ∧
      (deref h e1).map (fun n => n.name) = some "one" ∧
      (deref h e9).map (fun n => n.name) = some "nine" ∧ h.length = 9 ∧
      ∃ s s', runSequential h initShared [e1, e9] = Outcome.done s ∧
        runSequential h initShared [e9, e1] = Outcome.done s' ∧
        (∀ sym, s.counter.get sym = mapGet expectedCounts sym) ∧
        (∀ sym, s'.counter.get sym = mapGet expectedCounts sym) ∧
        s.counter.counter.length = 13 ∧ s'.counter.counter.length = 13 ∧
        (expectedCounts.map Prod.snd).sum = 30 ∧
        s.tracker.nodes.Perm (allCells h) ∧ s'.tracker.nodes.Perm (allCells h) := by
  obtain ⟨h, g, hrun, hb, hfin, hperm, hentry, _, _, _⟩ :=
    configGraph_spec defaultConfig order 10 (by decide) horder (by decide)
  have hwfh := built_wellFormed defaultConfig h g hb hfin
  obtain ⟨hv1, j1, n1, hres1, hnode1, hname1⟩ :=
    resolve_valid defaultConfig h g "one" hb (hperm.mem_iff.mpr (by decide))
  obtain ⟨hv9, j9, n9, hres9, hnode9, hname9⟩ :=
    resolve_valid defaultConfig h g "nine" hb (hperm.mem_iff.mpr (by decide))
  have hd1 : (deref h (resolve g.Created "one")).map (fun n => n.name) = some "one" := by
    rw [hres1]
    show (h[j1]?).map (fun n => n.name) = _
    rw [hnode1, Option.map_some', hname1]
  have hd9 : (deref h (resolve g.Created "nine")).map (fun n => n.name) = some "nine" := by
    rw [hres9]
    show (h[j9]?).map (fun n => n.name) = _
    rw [hnode9, Option.map_some', hname9]
  have hlen : h.length = 9 := by
    have := hperm.length_eq
    simpa [heapNames, mapKeys, defaultConfig] using this
  have hvalid : ∀ e ∈ [resolve g.Created "one", resolve g.Created "nine"],
      validPtr h e = true := by
    intro e he
    simp only [List.mem_cons, List.mem_singleton, List.mem_nil_iff, or_false] at he
    rcases he with rfl | rfl
    · exact hv1
    · exact hv9
  have hvalid' : ∀ e ∈ [resolve g.Created "nine", resolve g.Created "one"],
      validPtr h e = true := by
    intro e he
    simp only [List.mem_cons, List.mem_singleton, List.mem_nil_iff, or_false] at he
    rcases he with rfl | rfl
    · exact hv9
    · exact hv1
  obtain ⟨s, hs_run, hs⟩ := settled_run h hwfh _ [] initShared (settled_init h) hvalid
  obtain ⟨s', hs_run', hs'⟩ := settled_run h hwfh _ [] initShared (settled_init h) hvalid'
  obtain ⟨hc, hn, hl⟩ := settled_default_counts h g _ s hb hfin hperm hs
    (by simpa using hvalid) (by simp)
  obtain ⟨hc', hn', hl'⟩ := settled_default_counts h g _ s' hb hfin hperm hs'
    (by simpa using hvalid') (by simp)
  exact ⟨h, g, resolve g.Created "one", resolve g.Created "nine", hrun, hentry, hd1, hd9, hlen,
    s, s', hs_run, hs_run', hc, hc', hl, hl', by decide, hn, hn'⟩

/-- Witness of C19: with the map ranged over in the order of the literal, worker `one`
first. -/
theorem default_program_counts_witness :
    (mapKeys defaultConfig.NodeConfigs).Perm (mapKeys defaultConfig.NodeConfigs) ∧
    runSequential defaultHeap initShared [some 0, some 8] = Outcome.done
      { counter := { counter := [("A", 8), ("B", 7), ("C", 1), ("D", 2), ("E", 1), ("F", 2),
          ("H", 2), ("G", 1), ("J", 1), ("K", 2), ("V", 1), ("O", 1), ("S", 1)] },
        queue := { queue := [] },
        tracker := { visited := [(some 0, true), (some 1, true), (some 3, true),
          (some 2, true), (some 4, true), (some 7, true), (some 5, true), (some 6, true),
          (some 8, true)] } } ∧
    ∃ h g e1 e9, ConfigGraphDefault (mapKeys defaultConfig.NodeConfigs) = some (h, g) ∧
      g.EntryPoints = [e1, e9] ∧
      (deref h e1).map (fun n => n.name) = some "one" ∧
      (deref h e9).map (fun n => n.name) = some "nine" ∧ h.length = 9 ∧
      ∃ s s', runSequential h initShared [e1, e9] = Outcome.done s ∧
        runSequential h initShared [e9, e1] = Outcome.done s' ∧
        (∀ sym, s.counter.get sym = mapGet expectedCounts sym) ∧
        (∀ sym, s'.counter.get sym = mapGet expectedCounts sym) ∧
        s.counter.counter.length = 13 ∧ s'.counter.counter.length = 13 ∧
        (expectedCounts.map Prod.snd).sum = 30 ∧
        s.tracker.nodes.Perm (allCells h) ∧ s'.tracker.nodes.Perm (allCells h) :=
  ⟨List.Perm.refl _, by decide,
    default_program_counts (mapKeys defaultConfig.NodeConfigs) (List.Perm.refl _)⟩

end Linkchecker
